import Mathlib

/-!
# Verification of the `puzzle-solver-api` C++ 8-puzzle solver

This file is a shallow embedding of the core solver in
`src/cpp-solver/src/PuzzleSolver.hpp` (class `PuzzleSolver`, instantiated with
its default grid size 3, as both `main.cpp` and `bindings.cpp` do) and of the
pybind11 adapter in `src/cpp-solver/src/bindings.cpp`, together with proofs
about the embedded definitions.

Representation choices:
* `State = std::array<int, 9>` is embedded as `List Int` (all states handled
  by the program have length 9; comparison is structural equality, as for
  `std::array`).
* `Move = std::pair<int, int>` is `Int × Int`; `MovePath = std::vector<Move>` is
  `List Move`.
* `std::unordered_map` / `std::unordered_set` are embedded as association
  lists / lists; only lookup, membership, assignment and erasure are used by
  the program, so the embedding models exactly those.
* `std::priority_queue<PQElement, ..., std::greater<PQElement>>` pops the
  smallest `(f_score, state)` pair in the lexicographic order of
  `std::pair` / `std::array`; `popMin` below selects that minimum from a list
  of entries.
* the g-scores the program stores are C++ `int`s, but every value it ever
  writes is `0` or a previously stored value plus one, so they are embedded
  as `Nat` (all comparisons performed by the program coincide); `f`-scores
  and the heuristic are embedded as `Int`, like the `int`s they are.
* Lean's `Int` division/remainder (`/`, `%`) and C++'s truncating `int`
  division agree on non-negative operands; the program divides a possibly
  negative value only when a state contains no blank or a tile outside
  `1..8`, which the specification excludes (every claim below is guarded by
  `ValidState`), so the embedding and the program agree on all inputs the
  claims quantify over.
* the C++ `while` loop is embedded with an explicit fuel parameter
  (`solveLoop`); `solveFuel` is proved large enough for every valid input
  (see the termination theorem), so the embedding and the loop agree on all
  inputs the specification is about.
-/

/-- `using State = std::array<int, 9>`. -/
abbrev State : Type := List Int

/-- `using Move = std::pair<int, int>`. -/
abbrev Move : Type := Int × Int

/-- `using MovePath = std::vector<Move>`. -/
abbrev MovePath : Type := List Move

/-- `grid_size_`: both adapters construct `PuzzleSolver` with the default 3. -/
def gridSize : Int := 3

/-- `goal_state_({1, 2, 3, 4, 5, 6, 7, 8, 0})`. -/
def goalState : State := [1, 2, 3, 4, 5, 6, 7, 8, 0]

/-- The four neighbour offsets `{{0, 1}, {0, -1}, {1, 0}, {-1, 0}}` iterated
by the expansion loop. -/
def moveOffsets : List Move := [(0, 1), (0, -1), (1, 0), (-1, 0)]

/-- The blank-locating scan: first index `i` with `state[i] == 0`, with the
sentinel `-1` when there is none (`int empty_index = -1; for ... break;`). -/
def emptyIndexOf (s : State) : Int :=
  match s.findIdx? (fun x => x == 0) with
  | some i => (i : Int)
  | none => -1

/-- `std::swap(neighbor_state[empty_index], neighbor_state[tile_index])` on a
copy of the state: swap the entries at positions `i` and `j`. -/
def swapAt (s : State) (i j : Nat) : State :=
  (s.set i (s.getD j 0)).set j (s.getD i 0)

/-- The neighbour generation of one expansion step: for each in-bounds offset,
the move `{tile_r, tile_c}` recorded by the program together with the state
obtained by swapping the blank with that cell. -/
def neighborsOf (s : State) : List (Move × State) :=
  let ei := emptyIndexOf s
  let er := ei / gridSize
  let ec := ei % gridSize
  moveOffsets.filterMap (fun mv =>
    let tr := er + mv.1
    let tc := ec + mv.2
    if 0 ≤ tr ∧ tr < gridSize ∧ 0 ≤ tc ∧ tc < gridSize then
      some ((tr, tc), swapAt s ei.toNat (tr * gridSize + tc).toNat)
    else none)

/-- `heuristic`: total Manhattan distance of all non-blank tiles, exactly as
computed by the loop in `PuzzleSolver::heuristic` (note `i` is a `size_t`, so
`current_r`/`current_c` use natural division; `goal_index` is an `int`). -/
def heuristic (state : State) : Int :=
  (List.range state.length).foldl
    (fun distance i =>
      let num := state.getD i 0
      if num ≠ 0 then
        let goalIndex := num - 1
        let currentR : Int := ((i / 3 : Nat) : Int)
        let currentC : Int := ((i % 3 : Nat) : Int)
        let goalR := goalIndex / gridSize
        let goalC := goalIndex % gridSize
        distance + (|currentR - goalR| + |currentC - goalC|)
      else distance)
    0

/-- Association-list update, modelling `map[key] = value` on
`std::unordered_map`: the key is bound to the new value, all other bindings
are kept. -/
def setKV {β : Type} (m : List (State × β)) (k : State) (v : β) :
    List (State × β) :=
  (k, v) :: m.filter (fun p => !(p.1 == k))

/-- `open_set_hash.erase(s)` on a set embedded as a list. -/
def hashErase (l : List State) (k : State) : List State :=
  l.filter (fun x => !(x == k))

/-- Lexicographic comparison of two states, as `operator<` on
`std::array<int, 9>` compares them (the program only ever compares states of
equal length 9). -/
def stateLe : List Int → List Int → Bool
  | [], _ => true
  | _ :: _, [] => false
  | a :: as, b :: bs => if a < b then true else if b < a then false else stateLe as bs

/-- `std::greater<PQElement>` comparison: entry `x` precedes entry `y` when
`x ≤ y` in the lexicographic order on `(f_score, state)`. -/
def pqLe (x y : Int × State) : Bool :=
  if x.1 < y.1 then true else if y.1 < x.1 then false else stateLe x.2 y.2

/-- `open_heap.top()` / `open_heap.pop()`: remove the smallest entry in the
`pqLe` order, returning it together with the remaining entries (`none` when
the heap is empty). -/
def popMin : List (Int × State) → Option ((Int × State) × List (Int × State))
  | [] => none
  | x :: xs =>
    match popMin xs with
    | none => some (x, [])
    | some (m, rest) => if pqLe x m then some (x, xs) else some (m, x :: rest)

/-- The transient search records of one `solve_with_a_star` call: the frontier
`open_heap`, the `g_score` map, the `came_from` map and `open_set_hash`. -/
structure Config where
  heap : List (Int × State)
  gmap : List (State × Nat)
  camefrom : List (State × (State × Move))
  openhash : List State

/-- The body of the `for (const auto& move : ...)` loop for one neighbour:
relax the edge from `cur` to `mvnb.2` with move label `mvnb.1`, updating
`came_from`, `g_score` and (when the neighbour is not marked present) pushing
it onto the frontier. -/
def relaxNeighbor (cur : State) (c : Config) (mvnb : Move × State) : Config :=
  let mv := mvnb.1
  let nb := mvnb.2
  let tentative := (List.lookup cur c.gmap).getD 0 + 1
  let improves :=
    match List.lookup nb c.gmap with
    | none => true
    | some gnb => decide (tentative < gnb)
  if improves then
    let camefrom' := setKV c.camefrom nb (cur, mv)
    let gmap' := setKV c.gmap nb tentative
    let f : Int := (tentative : Int) + heuristic nb
    if nb ∈ c.openhash then
      { c with camefrom := camefrom', gmap := gmap' }
    else
      { heap := (f, nb) :: c.heap, gmap := gmap', camefrom := camefrom',
        openhash := nb :: c.openhash }
  else c

/-- One full expansion of a popped state: the neighbour loop, relaxing each
generated neighbour in order. -/
def expandState (cur : State) (c : Config) : Config :=
  (neighborsOf cur).foldl (relaxNeighbor cur) c

/-- The backward walk of `reconstruct_move_path`, with explicit fuel: follow
`came_from` links from `cur`, prepending each recorded move (the program
appends and reverses at the end, which yields the same list). -/
def reconstructAux : Nat → List (State × (State × Move)) → State → MovePath → MovePath
  | 0, _, _, acc => acc
  | fuel + 1, cf, cur, acc =>
    match List.lookup cur cf with
    | none => acc
    | some (p, mv) => reconstructAux fuel cf p (mv :: acc)

/-- `PuzzleSolver::reconstruct_move_path`.  The fuel `cf.length` is enough:
along `came_from` links the recorded g-scores strictly decrease (proved
below), so the walk meets at most `cf.length` records before stopping. -/
def reconstruct_move_path (cf : List (State × (State × Move))) (cur : State) :
    MovePath :=
  reconstructAux cf.length cf cur []

/-- The `while (!open_heap.empty())` loop of `solve_with_a_star`, with fuel.
`none` means the fuel ran out (proved unreachable for `solveFuel` and valid
inputs); `some r` means the loop finished with result `r`. -/
def solveLoop : Nat → Config → Option (Option MovePath)
  | 0, _ => none
  | fuel + 1, c =>
    match popMin c.heap with
    | none => some none
    | some (e, rest) =>
      let cur := e.2
      let c1 : Config :=
        { c with heap := rest, openhash := hashErase c.openhash cur }
      if cur = goalState then some (some (reconstruct_move_path c1.camefrom cur))
      else solveLoop fuel (expandState cur c1)

/-- Fuel that is proved sufficient for every valid initial state: a strictly
decreasing measure bounded by `9! * 9! + 1` (see the termination theorem). -/
def solveFuel : Nat := 362880 * 362880 + 2

/-- The configuration seeded by `solve_with_a_star` before entering its loop:
`g_score[initial] = 0`, one frontier entry `(heuristic(initial), initial)`,
`initial` marked present. -/
def initConfig (s : State) : Config :=
  { heap := [(heuristic s, s)], gmap := [(s, 0)], camefrom := [],
    openhash := [s] }

/-- `PuzzleSolver::solve_with_a_star`. -/
def solve_with_a_star (s : State) : Option MovePath :=
  if s = goalState then some []
  else
    match solveLoop solveFuel (initConfig s) with
    | some r => r
    | none => none

/-- The pybind11 `solve` lambda in `bindings.cpp`: reject inputs whose length
is not 9 with the error text it throws, otherwise run the core solver on the
converted state and hand its optional path back unchanged. -/
def bindingsSolve (state_list : List Int) : Except String (Option MovePath) :=
  if state_list.length ≠ 9 then
    Except.error "Input state must contain exactly 9 integers."
  else
    Except.ok (solve_with_a_star state_list)

/-! ## Specification-level notions

The predicates below are written from the specification's vocabulary: valid
states, legal moves, reachability, and replaying a returned move sequence. -/

/-- A valid state: a permutation of the tiles `0..8` (spec §3, §6). -/
def ValidState (s : State) : Prop := s.Perm goalState

instance : DecidablePred ValidState := fun s => List.decidablePerm s goalState

/-- One legal move of the puzzle, as generated by the program's expansion
step: `t` arises from `s` by swapping the blank with an orthogonally adjacent
tile. -/
def Step (s t : State) : Prop := t ∈ (neighborsOf s).map Prod.snd

/-- `ReachN s n t`: `t` is reachable from `s` in exactly `n` legal moves. -/
inductive ReachN : State → Nat → State → Prop
  | refl (s : State) : ReachN s 0 s
  | head {s t u : State} {n : Nat} : Step s t → ReachN t n u → ReachN s (n + 1) u

/-- Reachability by some sequence of legal moves. -/
def Reachable (s t : State) : Prop := ∃ n, ReachN s n t

/-- Replaying one `Move` from the spec's description (§8 "Path validity",
§3 "Move"): the named cell must lie on the grid and be orthogonally adjacent
to the blank's cell; its tile is swapped with the blank. -/
def applyMove (s : State) (mv : Move) : Option State :=
  match s.findIdx? (fun x => x == 0) with
  | none => none
  | some ei =>
    let er : Int := ((ei / 3 : Nat) : Int)
    let ec : Int := ((ei % 3 : Nat) : Int)
    if 0 ≤ mv.1 ∧ mv.1 < 3 ∧ 0 ≤ mv.2 ∧ mv.2 < 3 ∧
        |er - mv.1| + |ec - mv.2| = 1 then
      some (swapAt s ei (mv.1 * 3 + mv.2).toNat)
    else none

/-- Replaying a `MovePath` from a state, spec §8 "Path validity". -/
def replayMoves (s : State) (p : MovePath) : Option State :=
  p.foldlM applyMove s

/-- The Manhattan-distance sum as the specification words it (§4.1): "sum,
over every non-blank tile, the Manhattan distance (|Δrow| + |Δcol|) between
the tile's current grid cell and the grid cell it occupies in the goal
configuration". -/
def manhattanSpec (s : State) : Int :=
  ∑ t ∈ Finset.range 9,
    if t = 0 then 0
    else
      let i := s.indexOf ((t : Int))
      let goalCell := t - 1
      |((i / 3 : Nat) : Int) - ((goalCell / 3 : Nat) : Int)| +
        |((i % 3 : Nat) : Int) - ((goalCell % 3 : Nat) : Int)|

/-- The contribution of one slot to `heuristic`: the loop body's summand for
index `i` holding value `num`. -/
def contrib (i : Nat) (num : Int) : Int :=
  if num ≠ 0 then
    |((i / 3 : Nat) : Int) - (num - 1) / gridSize| +
      |((i % 3 : Nat) : Int) - (num - 1) % gridSize|
  else 0

/-- Sum of all recorded g-scores. -/
def gpotSum (c : Config) : Nat := (c.gmap.map Prod.snd).sum

/-- Termination measure for the search loop: recorded g-scores, plus the
count of states never yet recorded (weighted by the 9! = 362880 bound on any
recorded g-score), plus the frontier size.  Every loop iteration strictly
decreases it. -/
def phi (c : Config) : Nat :=
  gpotSum c + 362880 * (362880 - c.gmap.length) + c.heap.length

/-- The invariant maintained by the search loop of `solve_with_a_star`,
relative to the initial state `s0` of the call. -/
structure LoopInv (s0 : State) (c : Config) : Prop where
  gkeys_nodup : (c.gmap.map Prod.fst).Nodup
  gkeys_valid : ∀ p ∈ c.gmap, ValidState p.1
  gval_lt : ∀ p ∈ c.gmap, p.2 < c.gmap.length
  ginit : List.lookup s0 c.gmap = some 0
  heap_nodup : (c.heap.map Prod.snd).Nodup
  heap_hash : ∀ st : State, st ∈ c.heap.map Prod.snd ↔ st ∈ c.openhash
  hash_sub_g : ∀ st ∈ c.openhash, ∃ v, List.lookup st c.gmap = some v
  cf_dom : ∀ k : State, (∃ e, List.lookup k c.camefrom = some e) ↔
    (k ≠ s0 ∧ ∃ v, List.lookup k c.gmap = some v)
  cf_link : ∀ k p mv, List.lookup k c.camefrom = some (p, mv) →
    ∃ gk gp, List.lookup k c.gmap = some gk ∧ List.lookup p c.gmap = some gp ∧
      gp < gk ∧ (mv, k) ∈ neighborsOf p
  closure : ∀ p ∈ c.gmap, (p.1 ∈ c.heap.map Prod.snd) ∨
    (∀ x ∈ neighborsOf p.1, ∃ v, List.lookup x.2 c.gmap = some v)
  goal_heap : (∃ v, List.lookup goalState c.gmap = some v) →
    goalState ∈ c.heap.map Prod.snd

/-- The mid-expansion weakening of `LoopInv.closure`: the state `cur` being
expanded is exempt until all its neighbours have been relaxed. -/
def MidClosure (cur : State) (c : Config) : Prop :=
  ∀ p ∈ c.gmap, p.1 = cur ∨ (p.1 ∈ c.heap.map Prod.snd) ∨
    (∀ x ∈ neighborsOf p.1, ∃ v, List.lookup x.2 c.gmap = some v)

/-- Number of inversions of a sequence: pairs appearing in decreasing order.
Used for the solvability-parity argument. -/
def inversions : List Int → Nat
  | [] => 0
  | a :: as => as.countP (fun b => decide (b < a)) + inversions as

/-- The solvability parity class of a state: inversion parity plus blank
index parity.  Invariant under legal moves; separates the two reachability
classes used by the specification. -/
def parityJ (s : State) : ZMod 2 :=
  (inversions s : ZMod 2) + ((emptyIndexOf s).toNat : ZMod 2)

/-- The mid-expansion form of `LoopInv`: identical except that the closure
field is weakened to `MidClosure` for the state currently being expanded. -/
structure MidInv (s0 cur : State) (c : Config) : Prop where
  gkeys_nodup : (c.gmap.map Prod.fst).Nodup
  gkeys_valid : ∀ p ∈ c.gmap, ValidState p.1
  gval_lt : ∀ p ∈ c.gmap, p.2 < c.gmap.length
  ginit : List.lookup s0 c.gmap = some 0
  heap_nodup : (c.heap.map Prod.snd).Nodup
  heap_hash : ∀ st : State, st ∈ c.heap.map Prod.snd ↔ st ∈ c.openhash
  hash_sub_g : ∀ st ∈ c.openhash, ∃ v, List.lookup st c.gmap = some v
  cf_dom : ∀ k : State, (∃ e, List.lookup k c.camefrom = some e) ↔
    (k ≠ s0 ∧ ∃ v, List.lookup k c.gmap = some v)
  cf_link : ∀ k p mv, List.lookup k c.camefrom = some (p, mv) →
    ∃ gk gp, List.lookup k c.gmap = some gk ∧ List.lookup p c.gmap = some gp ∧
      gp < gk ∧ (mv, k) ∈ neighborsOf p
  midclosure : MidClosure cur c
  goal_heap : (∃ v, List.lookup goalState c.gmap = some v) →
    goalState ∈ c.heap.map Prod.snd

/-- Inversion pairs between two blocks: pairs `(a, b)` with `a` from `u`,
`b` from `w`, and `b < a`. -/
def crossInv (u w : List Int) : Nat :=
  (u.map (fun a => w.countP (fun b => decide (b < a)))).sum

/-! ## Basic lemmas about the embedded data structures -/

theorem lookup_cons_eq {β : Type} (a1 k' : State) (b : β) (m : List (State × β)) :
    List.lookup k' ((a1, b) :: m) = if k' = a1 then some b else List.lookup k' m := by
  rw [List.lookup_cons]
  by_cases hk : k' = a1
  · simp [hk]
  · have hb : (k' == a1) = false := by simpa using hk
    simp [hb, hk]

theorem lookup_filter_ne {β : Type} (m : List (State × β)) (k k' : State)
    (h : k' ≠ k) :
    List.lookup k' (m.filter (fun p => !(p.1 == k))) = List.lookup k' m := by
  induction m with
  | nil => rfl
  | cons a m ih =>
    obtain ⟨a1, b⟩ := a
    by_cases hak : a1 = k
    · subst hak
      rw [List.filter_cons]
      simp only [beq_self_eq_true, Bool.not_true, Bool.false_eq_true, if_false]
      rw [ih, lookup_cons_eq]
      simp [h]
    · rw [List.filter_cons]
      simp only [show ((a1 == k : Bool) = false) from by simpa using hak,
        Bool.not_false, if_true]
      rw [lookup_cons_eq, lookup_cons_eq]
      by_cases hk : k' = a1 <;> simp [hk, ih]

theorem lookup_setKV_self {β : Type} (m : List (State × β)) (k : State) (v : β) :
    List.lookup k (setKV m k v) = some v := by
  unfold setKV
  rw [lookup_cons_eq]
  simp

theorem lookup_setKV_ne {β : Type} (m : List (State × β)) (k k' : State) (v : β)
    (h : k' ≠ k) :
    List.lookup k' (setKV m k v) = List.lookup k' m := by
  unfold setKV
  rw [lookup_cons_eq, if_neg h]
  exact lookup_filter_ne m k k' h

theorem mem_hashErase {l : List State} {k x : State} :
    x ∈ hashErase l k ↔ x ∈ l ∧ x ≠ k := by
  unfold hashErase
  simp [List.mem_filter]

theorem popMin_eq_none_iff (l : List (Int × State)) : popMin l = none ↔ l = [] := by
  cases l with
  | nil => simp [popMin]
  | cons x xs =>
    simp only [popMin]
    cases popMin xs with
    | none => simp
    | some m => cases m with | mk e r => by_cases h : pqLe x e <;> simp [h]

theorem popMin_perm {l : List (Int × State)} {e : Int × State}
    {r : List (Int × State)} (h : popMin l = some (e, r)) : l.Perm (e :: r) := by
  induction l generalizing e r with
  | nil => simp [popMin] at h
  | cons x xs ih =>
    simp only [popMin] at h
    cases hxs : popMin xs with
    | none =>
      rw [hxs] at h
      simp only [Option.some.injEq, Prod.mk.injEq] at h
      obtain ⟨rfl, rfl⟩ := h
      rw [(popMin_eq_none_iff xs).mp hxs]
    | some m =>
      obtain ⟨m, rest⟩ := m
      rw [hxs] at h
      by_cases hle : pqLe x m
      · simp only [hle, if_true, Option.some.injEq, Prod.mk.injEq] at h
        obtain ⟨rfl, rfl⟩ := h
        exact List.Perm.refl _
      · simp only [hle, if_false, Option.some.injEq, Prod.mk.injEq] at h
        obtain ⟨rfl, rfl⟩ := h
        exact (List.Perm.cons x (ih hxs)).trans (List.Perm.swap e x rest)

/-! ## Valid states -/

theorem ValidState.length_eq {s : State} (hs : ValidState s) : s.length = 9 :=
  List.Perm.length_eq hs

theorem ValidState.zero_mem {s : State} (hs : ValidState s) : (0 : Int) ∈ s :=
  (List.Perm.mem_iff hs).mpr (by decide)

theorem ValidState.nodup {s : State} (hs : ValidState s) : s.Nodup :=
  (List.Perm.nodup_iff hs).mpr (by decide)

/-- The blank-locating scan on a valid state: it finds an index in `[0, 9)`
holding the blank, so the `-1` sentinel is never kept. -/
theorem emptyIndexOf_spec {s : State} (hs : ValidState s) :
    ∃ i : Nat, emptyIndexOf s = (i : Int) ∧ i < 9 ∧
      s.findIdx? (fun x => x == 0) = some i ∧ s.getD i 0 = 0 := by
  have hex : ∃ x, x ∈ s ∧ ((x == 0 : Bool) = true) :=
    ⟨0, hs.zero_mem, by simp⟩
  have hsome := List.findIdx?_eq_some_of_exists hex
  set i := s.findIdx (fun x => x == 0) with hi
  obtain ⟨hlt, hpi, -⟩ := List.findIdx?_eq_some_iff_getElem.mp hsome
  refine ⟨i, ?_, ?_, hsome, ?_⟩
  · unfold emptyIndexOf
    rw [hsome]
  · rw [← hs.length_eq]; exact hlt
  · rw [List.getD_eq_getElem s 0 hlt]
    simpa using hpi

/-! ## Claim C7: the goal state short-circuits to the empty path -/

/-- C7: `solve_with_a_star` applied to the goal configuration
`[1,2,3,4,5,6,7,8,0]` returns the empty path; the definition returns it from
the initial equality test, before any frontier is seeded. -/
theorem solve_goal_returns_empty : solve_with_a_star goalState = some [] := rfl

/-! ## Claim C8: one move away from the goal -/

/-- C8: on `[1,2,3,4,5,6,7,0,8]` the solver returns the one-move path
`[(2, 2)]`, and cell `(2, 2)` (row-major index `2 * 3 + 2 = 8`) is the cell
holding tile `8` in that input. -/
theorem solve_one_move :
    solve_with_a_star [1, 2, 3, 4, 5, 6, 7, 0, 8] = some [((2 : Int), (2 : Int))] ∧
    ([1, 2, 3, 4, 5, 6, 7, 0, 8] : State).getD (((2 : Int) * 3 + 2).toNat) 0 = 8 := by
  constructor
  · decide
  · decide

/-! ## Claim C9: the pybind11 binding's length check -/

/-- C9: the binding errors exactly on inputs whose length is not 9, and on
9-element inputs returns the core solver's optional path unchanged. -/
theorem bindings_length_check (l : List Int) :
    ((∃ e, bindingsSolve l = Except.error e) ↔ l.length ≠ 9) ∧
    (l.length = 9 → bindingsSolve l = Except.ok (solve_with_a_star l)) := by
  unfold bindingsSolve
  by_cases h : l.length = 9 <;> simp [h]

/-- Witness for C9 at concrete inputs. -/
theorem bindings_length_check_witness :
    bindingsSolve [1, 2, 3, 4, 5, 6, 7, 0, 8] =
      Except.ok (solve_with_a_star [1, 2, 3, 4, 5, 6, 7, 0, 8]) :=
  (bindings_length_check [1, 2, 3, 4, 5, 6, 7, 0, 8]).2 (by decide)

/-! ## Claim C10: the blank scan and neighbour indexing stay in bounds -/

/-- C10: on a valid permutation the blank scan finds an index in `[0, 9)`
pointing at the blank (the `-1` sentinel is unreachable), and every tile
index formed from an offset that passes the bounds check is below 9. -/
theorem blank_scan_in_bounds (s : State) (hs : ValidState s) :
    0 ≤ emptyIndexOf s ∧ emptyIndexOf s < 9 ∧ emptyIndexOf s ≠ -1 ∧
    (emptyIndexOf s).toNat < 9 ∧ s.getD (emptyIndexOf s).toNat 0 = 0 ∧
    ∀ mv ∈ moveOffsets,
      (0 ≤ emptyIndexOf s / gridSize + mv.1 ∧
       emptyIndexOf s / gridSize + mv.1 < gridSize ∧
       0 ≤ emptyIndexOf s % gridSize + mv.2 ∧
       emptyIndexOf s % gridSize + mv.2 < gridSize) →
      ((emptyIndexOf s / gridSize + mv.1) * gridSize +
        (emptyIndexOf s % gridSize + mv.2)).toNat < 9 := by
  obtain ⟨i, hei, hi9, -, hblank⟩ := emptyIndexOf_spec hs
  refine ⟨by rw [hei]; exact Int.natCast_nonneg i, ?_, ?_, ?_, ?_, ?_⟩
  · rw [hei]; exact_mod_cast hi9
  · rw [hei]; omega
  · rw [hei]; omega
  · rw [hei]
    simpa using hblank
  · intro mv hmv ⟨h1, h2, h3, h4⟩
    unfold gridSize at h1 h2 h3 h4 ⊢
    omega

/-! ## The heuristic as a sum of per-slot contributions -/

theorem foldl_add_eq_sum (f : Nat → Int) :
    ∀ (l : List Nat) (init : Int),
      l.foldl (fun d i => d + f i) init = init + (l.map f).sum := by
  intro l
  induction l with
  | nil => intro init; simp
  | cons a l ih =>
    intro init
    rw [List.foldl_cons, ih, List.map_cons, List.sum_cons]
    ring

theorem list_range_map_sum (f : Nat → Int) (n : Nat) :
    ((List.range n).map f).sum = ∑ i ∈ Finset.range n, f i := by
  induction n with
  | zero => simp
  | succ n ih => rw [List.range_succ, Finset.sum_range_succ, ← ih]; simp

theorem heuristic_eq_sum (s : State) :
    heuristic s = ∑ i ∈ Finset.range s.length, contrib i (s.getD i 0) := by
  unfold heuristic
  have hfun : (fun (distance : Int) (i : Nat) =>
      let num := s.getD i 0
      if num ≠ 0 then
        let goalIndex := num - 1
        let currentR : Int := ((i / 3 : Nat) : Int)
        let currentC : Int := ((i % 3 : Nat) : Int)
        let goalR := goalIndex / gridSize
        let goalC := goalIndex % gridSize
        distance + (|currentR - goalR| + |currentC - goalC|)
      else distance) = fun d i => d + contrib i (s.getD i 0) := by
    funext d i
    show (if s.getD i 0 ≠ 0 then
        d + (|((i / 3 : Nat) : Int) - (s.getD i 0 - 1) / gridSize| +
          |((i % 3 : Nat) : Int) - (s.getD i 0 - 1) % gridSize|)
      else d) = d + contrib i (s.getD i 0)
    unfold contrib
    split_ifs with h
    · rfl
    · ring
  rw [hfun, foldl_add_eq_sum, list_range_map_sum]
  simp

theorem contrib_nonneg (i : Nat) (num : Int) : 0 ≤ contrib i num := by
  unfold contrib
  split
  · positivity
  · exact le_refl 0

theorem heuristic_nonneg (s : State) : 0 ≤ heuristic s := by
  rw [heuristic_eq_sum]
  exact Finset.sum_nonneg fun i _ => contrib_nonneg i (s.getD i 0)

/-! ## Swapping two slots -/

theorem swapAt_length (s : List Int) (i j : Nat) :
    (swapAt s i j).length = s.length := by
  simp [swapAt]

theorem swapAt_getD (s : List Int) (i j k : Nat) (_hi : i < s.length)
    (_hj : j < s.length) (hk : k < s.length) :
    (swapAt s i j).getD k 0 =
      if j = k then s.getD i 0 else if i = k then s.getD j 0 else s.getD k 0 := by
  have hk2 : k < ((s.set i (s.getD j 0)).set j (s.getD i 0)).length := by
    simpa using hk
  have hk3 : k < (s.set i (s.getD j 0)).length := by simpa using hk
  unfold swapAt
  rw [List.getD_eq_getElem _ _ hk2, List.getElem_set, List.getElem_set]
  split_ifs with h1 h2
  · rfl
  · rfl
  · exact (List.getD_eq_getElem s 0 hk).symm

theorem cons_set_perm :
    ∀ (tl : List Int) (j : Nat) (a : Int), j < tl.length →
      ((tl.getD j 0 :: tl.set j a).Perm (a :: tl))
  | [], j, a, h => by simp at h
  | b :: tl2, 0, a, _ => by
    simpa using List.Perm.swap a b tl2
  | b :: tl2, j2 + 1, a, h => by
    have ih := cons_set_perm tl2 j2 a (by simpa using h)
    have h1 : ((b :: tl2).getD (j2 + 1) 0 :: (b :: tl2).set (j2 + 1) a) =
        tl2.getD j2 0 :: b :: tl2.set j2 a := by simp
    rw [h1]
    exact ((List.Perm.swap b (tl2.getD j2 0) (tl2.set j2 a)).trans
      (ih.cons b)).trans (List.Perm.swap a b tl2)

theorem swapAt_perm :
    ∀ (s : List Int) (i j : Nat), i < s.length → j < s.length →
      (swapAt s i j).Perm s
  | [], _, _, hi, _ => by simp at hi
  | a :: tl, 0, 0, _, _ => by simp [swapAt]
  | a :: tl, 0, j2 + 1, _, hj => by
    have h1 : swapAt (a :: tl) 0 (j2 + 1) = tl.getD j2 0 :: tl.set j2 a := by
      simp [swapAt]
    rw [h1]
    exact cons_set_perm tl j2 a (by simpa using hj)
  | a :: tl, i2 + 1, 0, hi, _ => by
    have h1 : swapAt (a :: tl) (i2 + 1) 0 = tl.getD i2 0 :: tl.set i2 a := by
      simp [swapAt]
    rw [h1]
    exact cons_set_perm tl i2 a (by simpa using hi)
  | a :: tl, i2 + 1, j2 + 1, hi, hj => by
    have h1 : swapAt (a :: tl) (i2 + 1) (j2 + 1) = a :: swapAt tl i2 j2 := by
      simp [swapAt]
    rw [h1]
    exact (swapAt_perm tl i2 j2 (by simpa using hi) (by simpa using hj)).cons a

/-! ## Characterising the generated neighbours -/

theorem abs_self_sub_add_one (y : Int) : |y - (y + 1)| = 1 := by
  rw [show y - (y + 1) = -1 by ring]
  norm_num

theorem abs_add_one_sub_self (y : Int) : |y + 1 - y| = 1 := by
  rw [show y + 1 - y = 1 by ring]
  norm_num

theorem mem_neighborsOf_iff {s : State} {x : Move × State} :
    x ∈ neighborsOf s ↔ ∃ mv ∈ moveOffsets,
      (0 ≤ emptyIndexOf s / gridSize + mv.1 ∧
       emptyIndexOf s / gridSize + mv.1 < gridSize ∧
       0 ≤ emptyIndexOf s % gridSize + mv.2 ∧
       emptyIndexOf s % gridSize + mv.2 < gridSize) ∧
      ((emptyIndexOf s / gridSize + mv.1, emptyIndexOf s % gridSize + mv.2),
        swapAt s (emptyIndexOf s).toNat
          ((emptyIndexOf s / gridSize + mv.1) * gridSize +
            (emptyIndexOf s % gridSize + mv.2)).toNat) = x := by
  simp only [neighborsOf]
  rw [List.mem_filterMap]
  constructor
  · rintro ⟨mv, hmv, heq⟩
    rw [Option.ite_none_right_eq_some] at heq
    obtain ⟨hcond, heq⟩ := heq
    exact ⟨mv, hmv, hcond, by simpa using heq⟩
  · rintro ⟨mv, hmv, hcond, heq⟩
    refine ⟨mv, hmv, ?_⟩
    rw [Option.ite_none_right_eq_some]
    exact ⟨hcond, by simpa using heq⟩

/-- `|y - (y - 1)| = 1`. -/
theorem abs_self_sub_sub_one (y : Int) : |y - (y - 1)| = 1 := by
  rw [show y - (y - 1) = 1 by ring]
  norm_num

/-- Decomposition of one generated neighbour of a valid state: the blank sits
at index `i`, the swapped tile at an adjacent index `ti`, the recorded move is
that tile's cell, and the cells are at Manhattan distance 1. -/
theorem step_decomp {s : State} {mv : Move} {nb : State} (hs : ValidState s)
    (h : (mv, nb) ∈ neighborsOf s) :
    ∃ i ti : Nat, i < 9 ∧ ti < 9 ∧ i ≠ ti ∧
      emptyIndexOf s = (i : Int) ∧ s.getD i 0 = 0 ∧
      nb = swapAt s i ti ∧
      mv = (((ti / 3 : Nat) : Int), ((ti % 3 : Nat) : Int)) ∧
      (|((i / 3 : Nat) : Int) - ((ti / 3 : Nat) : Int)| +
        |((i % 3 : Nat) : Int) - ((ti % 3 : Nat) : Int)| = 1) ∧
      (ti = i + 1 ∨ i = ti + 1 ∨ ti = i + 3 ∨ i = ti + 3) := by
  obtain ⟨i, hei, hi9, hfind, hblank⟩ := emptyIndexOf_spec hs
  rw [mem_neighborsOf_iff] at h
  obtain ⟨m, hm, hcond, heq⟩ := h
  rw [hei] at hcond heq
  simp only [moveOffsets, List.mem_cons, List.not_mem_nil, or_false] at hm
  rcases hm with rfl | rfl | rfl | rfl
  · -- offset (0, 1): the tile to the right of the blank
    simp only [gridSize] at hcond heq
    norm_num at hcond heq
    have hti : ((i : Int) / 3 * 3 + ((i : Int) % 3 + 1)).toNat = i + 1 := by omega
    rw [hti] at heq
    obtain ⟨hmv, hnb⟩ := heq
    refine ⟨i, i + 1, hi9, by omega, by omega, hei, hblank, hnb.symm, ?_, ?_,
      by omega⟩
    · rw [← hmv]
      simp only [Prod.mk.injEq]
      constructor <;> omega
    · rw [show ((i + 1) / 3 : Nat) = i / 3 from by omega,
        show ((i + 1) % 3 : Nat) = i % 3 + 1 from by omega]
      rw [show ((i % 3 + 1 : Nat) : Int) = ((i % 3 : Nat) : Int) + 1 from by
        push_cast; ring]
      simp only [sub_self, abs_zero, zero_add]
      exact abs_self_sub_add_one _
  · -- offset (0, -1): the tile to the left of the blank
    simp only [gridSize] at hcond heq
    norm_num at hcond heq
    have hb : 1 ≤ i % 3 := by omega
    have hti : ((i : Int) / 3 * 3 + ((i : Int) % 3 + -1)).toNat = i - 1 := by omega
    rw [hti] at heq
    obtain ⟨hmv, hnb⟩ := heq
    refine ⟨i, i - 1, hi9, by omega, by omega, hei, hblank, hnb.symm, ?_, ?_,
      by omega⟩
    · rw [← hmv]
      simp only [Prod.mk.injEq]
      constructor <;> omega
    · rw [show ((i - 1) / 3 : Nat) = i / 3 from by omega,
        show ((i - 1) % 3 : Nat) = i % 3 - 1 from by omega]
      rw [show ((i % 3 - 1 : Nat) : Int) = ((i % 3 : Nat) : Int) - 1 from by omega]
      simp only [sub_self, abs_zero, zero_add]
      exact abs_self_sub_sub_one _
  · -- offset (1, 0): the tile below the blank
    simp only [gridSize] at hcond heq
    norm_num at hcond heq
    have hb : i / 3 ≤ 1 := by omega
    have hti : (((i : Int) / 3 + 1) * 3 + (i : Int) % 3).toNat = i + 3 := by omega
    rw [hti] at heq
    obtain ⟨hmv, hnb⟩ := heq
    refine ⟨i, i + 3, hi9, by omega, by omega, hei, hblank, hnb.symm, ?_, ?_,
      by omega⟩
    · rw [← hmv]
      simp only [Prod.mk.injEq]
      constructor <;> omega
    · rw [show ((i + 3) / 3 : Nat) = i / 3 + 1 from by omega,
        show ((i + 3) % 3 : Nat) = i % 3 from by omega]
      rw [show ((i / 3 + 1 : Nat) : Int) = ((i / 3 : Nat) : Int) + 1 from by
        push_cast; ring]
      simp only [sub_self, abs_zero, add_zero]
      exact abs_self_sub_add_one _
  · -- offset (-1, 0): the tile above the blank
    simp only [gridSize] at hcond heq
    norm_num at hcond heq
    have hb : 1 ≤ i / 3 := by omega
    have hti : (((i : Int) / 3 + -1) * 3 + (i : Int) % 3).toNat = i - 3 := by omega
    rw [hti] at heq
    obtain ⟨hmv, hnb⟩ := heq
    refine ⟨i, i - 3, hi9, by omega, by omega, hei, hblank, hnb.symm, ?_, ?_,
      by omega⟩
    · rw [← hmv]
      simp only [Prod.mk.injEq]
      constructor <;> omega
    · rw [show ((i - 3) / 3 : Nat) = i / 3 - 1 from by omega,
        show ((i - 3) % 3 : Nat) = i % 3 from by omega]
      rw [show ((i / 3 - 1 : Nat) : Int) = ((i / 3 : Nat) : Int) - 1 from by omega]
      simp only [sub_self, abs_zero, add_zero]
      exact abs_self_sub_sub_one _

/-! ## Legal moves preserve validity -/

theorem step_iff {s t : State} : Step s t ↔ ∃ mv, (mv, t) ∈ neighborsOf s := by
  unfold Step
  rw [List.mem_map]
  constructor
  · rintro ⟨x, hx, he⟩
    refine ⟨x.1, ?_⟩
    have : (x.1, t) = x := Prod.ext rfl he.symm
    rwa [this]
  · rintro ⟨mv, hmv⟩
    exact ⟨(mv, t), hmv, rfl⟩

theorem valid_of_mem_neighbors {s : State} {mv : Move} {nb : State}
    (hs : ValidState s) (h : (mv, nb) ∈ neighborsOf s) : ValidState nb := by
  obtain ⟨i, ti, hi, hti, -, -, -, hnb, -⟩ := step_decomp hs h
  have hlen := hs.length_eq
  have hperm : (swapAt s i ti).Perm s :=
    swapAt_perm s i ti (by omega) (by omega)
  rw [hnb]
  exact hperm.trans hs

theorem step_valid {s t : State} (hs : ValidState s) (hst : Step s t) :
    ValidState t := by
  obtain ⟨mv, hmv⟩ := step_iff.mp hst
  exact valid_of_mem_neighbors hs hmv

theorem tile_ne_zero {s : State} (hs : ValidState s) {i ti : Nat} (hi : i < 9)
    (hti : ti < 9) (hne : i ≠ ti) (hblank : s.getD i 0 = 0) :
    s.getD ti 0 ≠ 0 := by
  have hlen := hs.length_eq
  have hi' : i < s.length := by omega
  have hti' : ti < s.length := by omega
  rw [List.getD_eq_getElem s 0 hti']
  rw [List.getD_eq_getElem s 0 hi'] at hblank
  intro hcon
  exact hne ((hs.nodup.getElem_inj_iff).mp (hblank.trans hcon.symm))

/-! ## The heuristic changes by at most one per move -/

theorem contrib_triangle (i ti : Nat) (v : Int) (hv : v ≠ 0)
    (hadj : |((i / 3 : Nat) : Int) - ((ti / 3 : Nat) : Int)| +
      |((i % 3 : Nat) : Int) - ((ti % 3 : Nat) : Int)| = 1) :
    contrib ti v ≤ contrib i v + 1 := by
  unfold contrib
  rw [if_pos hv, if_pos hv]
  have h1 := abs_sub_le ((ti / 3 : Nat) : Int) ((i / 3 : Nat) : Int)
    ((v - 1) / gridSize)
  have h2 := abs_sub_le ((ti % 3 : Nat) : Int) ((i % 3 : Nat) : Int)
    ((v - 1) % gridSize)
  have c1 : |((ti / 3 : Nat) : Int) - ((i / 3 : Nat) : Int)| =
      |((i / 3 : Nat) : Int) - ((ti / 3 : Nat) : Int)| := abs_sub_comm _ _
  have c2 : |((ti % 3 : Nat) : Int) - ((i % 3 : Nat) : Int)| =
      |((i % 3 : Nat) : Int) - ((ti % 3 : Nat) : Int)| := abs_sub_comm _ _
  linarith

theorem heuristic_step {s : State} {mv : Move} {nb : State} (hs : ValidState s)
    (h : (mv, nb) ∈ neighborsOf s) : heuristic s ≤ heuristic nb + 1 := by
  obtain ⟨i, ti, hi, hti, hne, -, hblank, hnb, -, hadj, -⟩ := step_decomp hs h
  have hlen := hs.length_eq
  have hv : s.getD ti 0 ≠ 0 := tile_ne_zero hs hi hti hne hblank
  have hlen2 : nb.length = 9 := by rw [hnb, swapAt_length]; exact hlen
  rw [heuristic_eq_sum s, heuristic_eq_sum nb, hlen, hlen2]
  have hgi : nb.getD i 0 = s.getD ti 0 := by
    rw [hnb, swapAt_getD s i ti i (by omega) (by omega) (by omega)]
    rw [if_neg (Ne.symm hne), if_pos rfl]
  have hgti : nb.getD ti 0 = 0 := by
    rw [hnb, swapAt_getD s i ti ti (by omega) (by omega) (by omega)]
    rw [if_pos rfl]
    exact hblank
  have hgk : ∀ k, k ≠ i → k ≠ ti → nb.getD k 0 = s.getD k 0 := by
    intro k hki hkti
    by_cases hk : k < 9
    · rw [hnb, swapAt_getD s i ti k (by omega) (by omega) (by omega)]
      rw [if_neg (fun hc => hkti hc.symm), if_neg (fun hc => hki hc.symm)]
    · have h1 : s.length ≤ k := by omega
      have h2 : nb.length ≤ k := by omega
      rw [List.getD_eq_default _ _ h1, List.getD_eq_default _ _ h2]
  have hmemi : i ∈ Finset.range 9 := Finset.mem_range.mpr hi
  have hmemti : ti ∈ (Finset.range 9).erase i :=
    Finset.mem_erase.mpr ⟨Ne.symm hne, Finset.mem_range.mpr hti⟩
  have hmemti' : ti ∈ Finset.range 9 := Finset.mem_range.mpr hti
  have hmemi' : i ∈ (Finset.range 9).erase ti :=
    Finset.mem_erase.mpr ⟨hne, Finset.mem_range.mpr hi⟩
  -- rewrite the s-side sum
  have hFi : contrib i (s.getD i 0) = 0 := by rw [hblank]; simp [contrib]
  have hGti : contrib ti (nb.getD ti 0) = 0 := by rw [hgti]; simp [contrib]
  have hS : ∑ k ∈ Finset.range 9, contrib k (s.getD k 0) =
      ∑ k ∈ ((Finset.range 9).erase i).erase ti, contrib k (s.getD k 0) +
        contrib ti (s.getD ti 0) := by
    rw [Finset.sum_erase_add _ _ hmemti]
    rw [@Finset.sum_erase _ _ _ _ (Finset.range 9)
      (fun k => contrib k (s.getD k 0)) i hFi]
  have hG : ∑ k ∈ Finset.range 9, contrib k (nb.getD k 0) =
      ∑ k ∈ ((Finset.range 9).erase ti).erase i, contrib k (nb.getD k 0) +
        contrib i (nb.getD i 0) := by
    rw [Finset.sum_erase_add _ _ hmemi']
    rw [@Finset.sum_erase _ _ _ _ (Finset.range 9)
      (fun k => contrib k (nb.getD k 0)) ti hGti]
  have hmid : ∑ k ∈ ((Finset.range 9).erase ti).erase i, contrib k (nb.getD k 0) =
      ∑ k ∈ ((Finset.range 9).erase i).erase ti, contrib k (s.getD k 0) := by
    rw [Finset.erase_right_comm]
    refine Finset.sum_congr rfl ?_
    intro k hk
    obtain ⟨hkti, hk2⟩ := Finset.mem_erase.mp hk
    obtain ⟨hki, -⟩ := Finset.mem_erase.mp hk2
    rw [hgk k hki hkti]
  rw [hS, hG, hmid, hgi]
  have := contrib_triangle i ti (s.getD ti 0) hv hadj
  linarith

/-! ## Admissibility of the heuristic -/

theorem heuristic_le_reach {s : State} {n : Nat} (h : ReachN s n goalState)
    (hs : ValidState s) : heuristic s ≤ n := by
  suffices H : ∀ (s u : State) (n : Nat), ReachN s n u → u = goalState →
      ValidState s → heuristic s ≤ n from H s goalState n h rfl hs
  intro s u n h
  induction h with
  | refl s =>
    intro hu _
    subst hu
    decide
  | @head s t u n hst hr ih =>
    intro hu hs'
    have hvt : ValidState t := step_valid hs' hst
    obtain ⟨mv, hmv⟩ := step_iff.mp hst
    have h1 : heuristic s ≤ heuristic t + 1 := heuristic_step hs' hmv
    have h2 := ih hu hvt
    push_cast
    push_cast at h2
    linarith

/-! ## The heuristic equals the specification's Manhattan sum -/

theorem goalState_mem_bounds : ∀ x ∈ goalState, 0 ≤ x ∧ x < 9 := by decide

theorem valid_value_bounds {s : State} (hs : ValidState s) :
    ∀ x ∈ s, 0 ≤ x ∧ x < 9 :=
  fun x hx => goalState_mem_bounds x (List.Perm.subset hs hx)

theorem manhattanSpec_eq_contrib_sum (s : State) :
    manhattanSpec s =
      ∑ t ∈ Finset.range 9, contrib (s.indexOf ((t : Int))) ((t : Int)) := by
  unfold manhattanSpec
  refine Finset.sum_congr rfl ?_
  intro t ht
  by_cases h0 : t = 0
  · subst h0
    simp [contrib]
  · rw [if_neg h0]
    unfold contrib
    rw [if_pos (show ((t : Nat) : Int) ≠ 0 from by exact_mod_cast h0)]
    have ht1 : 1 ≤ t := Nat.one_le_iff_ne_zero.mpr h0
    have h1 : ((t : Nat) : Int) - 1 = ((t - 1 : Nat) : Int) := by omega
    have h2 : ((t - 1 : Nat) : Int) / gridSize = (((t - 1) / 3 : Nat) : Int) := by
      simp only [gridSize]
      rw [Int.natCast_div]
      norm_num
    have h3 : ((t - 1 : Nat) : Int) % gridSize = (((t - 1) % 3 : Nat) : Int) := by
      simp only [gridSize]
      push_cast
      ring
    rw [h1, h2, h3]

theorem heuristic_eq_manhattanSpec {s : State} (hs : ValidState s) :
    heuristic s = manhattanSpec s := by
  rw [heuristic_eq_sum, hs.length_eq, manhattanSpec_eq_contrib_sum]
  have hlen := hs.length_eq
  have hmem9 : ∀ t ∈ Finset.range 9, ((t : Nat) : Int) ∈ s := by
    intro t ht
    refine (List.Perm.mem_iff hs).mpr ?_
    have : ∀ t ∈ Finset.range 9, ((t : Nat) : Int) ∈ goalState := by decide
    exact this t ht
  have hgetD_mem : ∀ k, k < 9 → s.getD k 0 ∈ s := by
    intro k hk
    have hk' : k < s.length := by omega
    rw [List.getD_eq_getElem s 0 hk']
    exact List.getElem_mem hk'
  have hnonneg : ∀ k, k < 9 → 0 ≤ s.getD k 0 ∧ s.getD k 0 < 9 := by
    intro k hk
    exact valid_value_bounds hs _ (hgetD_mem k hk)
  refine Finset.sum_nbij' (fun k => (s.getD k 0).toNat)
    (fun t => s.indexOf ((t : Int))) ?_ ?_ ?_ ?_ ?_
  · intro k hk
    show (s.getD k 0).toNat ∈ Finset.range 9
    rw [Finset.mem_range] at hk ⊢
    obtain ⟨h1, h2⟩ := hnonneg k hk
    omega
  · intro t ht
    show s.indexOf (((t : Nat) : Int)) ∈ Finset.range 9
    rw [Finset.mem_range] at ht ⊢
    have : s.indexOf ((t : Int)) < s.length :=
      List.indexOf_lt_length.mpr (hmem9 t (Finset.mem_range.mpr ht))
    omega
  · intro k hk
    show s.indexOf ((((s.getD k 0).toNat : Nat) : Int)) = k
    rw [Finset.mem_range] at hk
    have hk' : k < s.length := by omega
    obtain ⟨h1, -⟩ := hnonneg k hk
    rw [Int.toNat_of_nonneg h1]
    rw [List.getD_eq_getElem s 0 hk']
    exact List.indexOf_getElem hs.nodup k hk'
  · intro t ht
    show (s.getD (s.indexOf (((t : Nat) : Int))) 0).toNat = t
    rw [Finset.mem_range] at ht
    have hmem := hmem9 t (Finset.mem_range.mpr ht)
    have hidx : s.indexOf ((t : Int)) < s.length := List.indexOf_lt_length.mpr hmem
    rw [List.getD_eq_getElem s 0 hidx, List.getElem_indexOf hidx]
    exact Int.toNat_natCast t
  · intro k hk
    show contrib k (s.getD k 0) =
      contrib (s.indexOf ((((s.getD k 0).toNat : Nat) : Int)))
        ((((s.getD k 0).toNat : Nat) : Int))
    rw [Finset.mem_range] at hk
    obtain ⟨h1, -⟩ := hnonneg k hk
    have hk' : k < s.length := by omega
    have hcast : (((s.getD k 0).toNat : Nat) : Int) = s.getD k 0 :=
      Int.toNat_of_nonneg h1
    rw [hcast]
    congr 1
    rw [List.getD_eq_getElem s 0 hk']
    exact (List.indexOf_getElem hs.nodup k hk').symm

/-! ## Claim C5: the heuristic's contract -/

/-- C5: on valid states the heuristic equals the specification's Manhattan
sum, is non-negative, and never exceeds the length of any legal move sequence
from the state to the goal (admissibility with respect to the true minimum). -/
theorem heuristic_contract (s : State) (hs : ValidState s) :
    heuristic s = manhattanSpec s ∧ 0 ≤ heuristic s ∧
    ∀ n, ReachN s n goalState → heuristic s ≤ n :=
  ⟨heuristic_eq_manhattanSpec hs, heuristic_nonneg s,
    fun _ h => heuristic_le_reach h hs⟩

/-- Witness for C5 at a concrete valid state. -/
theorem heuristic_contract_witness :
    ValidState [1, 2, 3, 4, 5, 6, 7, 0, 8] ∧
      (heuristic [1, 2, 3, 4, 5, 6, 7, 0, 8] =
        manhattanSpec [1, 2, 3, 4, 5, 6, 7, 0, 8] ∧
      0 ≤ heuristic [1, 2, 3, 4, 5, 6, 7, 0, 8] ∧
      ∀ n, ReachN [1, 2, 3, 4, 5, 6, 7, 0, 8] n goalState →
        heuristic [1, 2, 3, 4, 5, 6, 7, 0, 8] ≤ n) :=
  ⟨by decide, heuristic_contract [1, 2, 3, 4, 5, 6, 7, 0, 8] (by decide)⟩

/-! ## Bookkeeping lemmas for the association-list maps -/

theorem lookup_some_mem {β : Type} {m : List (State × β)} {k : State} {v : β}
    (h : List.lookup k m = some v) : (k, v) ∈ m := by
  obtain ⟨l1, l2, rfl, -⟩ := List.lookup_eq_some_iff.mp h
  simp

theorem lookup_isSome_iff_mem_keys {β : Type} (m : List (State × β)) (k : State) :
    (∃ v, List.lookup k m = some v) ↔ k ∈ m.map Prod.fst := by
  constructor
  · rintro ⟨v, hv⟩
    exact List.mem_map.mpr ⟨(k, v), lookup_some_mem hv, rfl⟩
  · intro hk
    obtain ⟨p, hp, hfst⟩ := List.mem_map.mp hk
    have : (List.lookup k m).isSome := by
      rw [List.lookup_isSome_iff]
      exact ⟨p, hp, by simp [hfst]⟩
    obtain ⟨v, hv⟩ := Option.isSome_iff_exists.mp this
    exact ⟨v, hv⟩

theorem mem_setKV {β : Type} {m : List (State × β)} {k : State} {v : β}
    {p : State × β} (h : p ∈ setKV m k v) :
    p = (k, v) ∨ (p ∈ m ∧ p.1 ≠ k) := by
  unfold setKV at h
  rcases List.mem_cons.mp h with h | h
  · exact Or.inl h
  · obtain ⟨hm, hcond⟩ := List.mem_filter.mp h
    exact Or.inr ⟨hm, by simpa using hcond⟩

theorem setKV_keys_nodup {β : Type} {m : List (State × β)} (k : State) (v : β)
    (h : (m.map Prod.fst).Nodup) : ((setKV m k v).map Prod.fst).Nodup := by
  unfold setKV
  rw [List.map_cons]
  refine List.Nodup.cons ?_ (h.sublist (List.Sublist.map _ (List.filter_sublist m)))
  intro hk
  obtain ⟨p, hp, hfst⟩ := List.mem_map.mp hk
  obtain ⟨-, hcond⟩ := List.mem_filter.mp hp
  rw [hfst] at hcond
  simp at hcond

theorem filter_out_key_none {β : Type} {m : List (State × β)} {k : State}
    (h : List.lookup k m = none) :
    m.filter (fun p => !(p.1 == k)) = m := by
  rw [List.filter_eq_self]
  intro p hp
  rw [List.lookup_eq_none_iff] at h
  have h2 : k ≠ p.1 := by simpa using h p hp
  simpa using fun hc => h2 hc.symm

theorem filter_out_key_some {m : List (State × Nat)} {k : State} {v0 : Nat}
    (hnd : (m.map Prod.fst).Nodup) (h : List.lookup k m = some v0) :
    (m.filter (fun p => !(p.1 == k))).length + 1 = m.length ∧
    ((m.filter (fun p => !(p.1 == k))).map Prod.snd).sum + v0 =
      (m.map Prod.snd).sum := by
  induction m with
  | nil => simp at h
  | cons a rest ih =>
    obtain ⟨a1, b1⟩ := a
    rw [lookup_cons_eq] at h
    rw [List.map_cons] at hnd
    have hnd1 : a1 ∉ rest.map Prod.fst := (List.nodup_cons.mp hnd).1
    have hnd2 : (rest.map Prod.fst).Nodup := (List.nodup_cons.mp hnd).2
    by_cases hk : k = a1
    · rw [if_pos hk] at h
      have hb1 : b1 = v0 := by injection h
      subst hb1
      subst hk
      have hfil : rest.filter (fun p => !(p.1 == k)) = rest := by
        rw [List.filter_eq_self]
        intro p hp
        have : p.1 ≠ k := by
          intro hc
          exact hnd1 (List.mem_map.mpr ⟨p, hp, hc⟩)
        simpa using this
      rw [List.filter_cons]
      simp only [beq_self_eq_true, Bool.not_true, Bool.false_eq_true, if_false]
      rw [hfil]
      constructor
      · simp
      · simp [Nat.add_comm]
    · rw [if_neg hk] at h
      obtain ⟨hlen, hsum⟩ := ih hnd2 h
      rw [List.filter_cons]
      have hcond : (!((a1, b1).1 == k)) = true := by
        simp only [Bool.not_eq_eq_eq_not, Bool.not_true]
        simpa using fun hc => hk hc.symm
      rw [if_pos hcond]
      constructor
      · simp only [List.length_cons]
        omega
      · simp only [List.map_cons, List.sum_cons]
        omega

theorem setKV_stats_some {m : List (State × Nat)} {k : State} {v0 : Nat}
    (v : Nat) (hnd : (m.map Prod.fst).Nodup) (h : List.lookup k m = some v0) :
    (setKV m k v).length = m.length ∧
    ((setKV m k v).map Prod.snd).sum + v0 = (m.map Prod.snd).sum + v := by
  obtain ⟨hlen, hsum⟩ := filter_out_key_some hnd h
  unfold setKV
  constructor
  · simp only [List.length_cons]
    omega
  · simp only [List.map_cons, List.sum_cons]
    omega

theorem setKV_eq_cons_of_none {β : Type} {m : List (State × β)} {k : State}
    (v : β) (h : List.lookup k m = none) : setKV m k v = (k, v) :: m := by
  unfold setKV
  rw [filter_out_key_none h]

theorem keys_length_le_of_valid (m : List (State × Nat))
    (hnd : (m.map Prod.fst).Nodup) (hval : ∀ p ∈ m, ValidState p.1) :
    m.length ≤ 362880 := by
  have hsub : (m.map Prod.fst).toFinset ⊆ goalState.permutations.toFinset := by
    intro x hx
    rw [List.mem_toFinset] at hx ⊢
    obtain ⟨p, hp, rfl⟩ := List.mem_map.mp hx
    rw [List.mem_permutations]
    exact hval p hp
  have h1 : (m.map Prod.fst).toFinset.card = (m.map Prod.fst).length :=
    List.toFinset_card_of_nodup hnd
  have h2 := Finset.card_le_card hsub
  have h3 := goalState.permutations.toFinset_card_le
  have h4 : goalState.permutations.length = 362880 := by
    rw [List.length_permutations]
    rfl
  have h5 : (m.map Prod.fst).length = m.length := List.length_map _ _
  omega

/-! ## Unfolding the relaxation step -/

theorem relaxNeighbor_no_improve {cur : State} {c : Config} {x : Move × State}
    {gnb : Nat} (hg : List.lookup x.2 c.gmap = some gnb)
    (hni : ¬ ((List.lookup cur c.gmap).getD 0 + 1 < gnb)) :
    relaxNeighbor cur c x = c := by
  simp only [relaxNeighbor]
  rw [hg]
  simp [hni]

theorem relaxNeighbor_update {cur : State} {c : Config} {x : Move × State}
    (himp : List.lookup x.2 c.gmap = none ∨
      ∃ gnb, List.lookup x.2 c.gmap = some gnb ∧
        (List.lookup cur c.gmap).getD 0 + 1 < gnb)
    (hhash : x.2 ∈ c.openhash) :
    relaxNeighbor cur c x =
      { c with
        camefrom := setKV c.camefrom x.2 (cur, x.1),
        gmap := setKV c.gmap x.2 ((List.lookup cur c.gmap).getD 0 + 1) } := by
  simp only [relaxNeighbor]
  rcases himp with h | ⟨gnb, hg, hlt⟩
  · rw [h]
    simp [hhash]
  · rw [hg]
    simp [hlt, hhash]

theorem relaxNeighbor_push {cur : State} {c : Config} {x : Move × State}
    (himp : List.lookup x.2 c.gmap = none ∨
      ∃ gnb, List.lookup x.2 c.gmap = some gnb ∧
        (List.lookup cur c.gmap).getD 0 + 1 < gnb)
    (hhash : x.2 ∉ c.openhash) :
    relaxNeighbor cur c x =
      { heap := (((List.lookup cur c.gmap).getD 0 + 1 : Nat) + heuristic x.2,
          x.2) :: c.heap,
        gmap := setKV c.gmap x.2 ((List.lookup cur c.gmap).getD 0 + 1),
        camefrom := setKV c.camefrom x.2 (cur, x.1),
        openhash := x.2 :: c.openhash } := by
  simp only [relaxNeighbor]
  rcases himp with h | ⟨gnb, hg, hlt⟩
  · rw [h]
    simp [hhash]
  · rw [hg]
    simp [hlt, hhash]

/-! ## Preservation of the invariant by one relaxation -/

theorem improve_core {s0 cur nb : State} {mv : Move} {c : Config} {gc : Nat}
    (hinv : MidInv s0 cur c) (hgc : List.lookup cur c.gmap = some gc)
    (himp : List.lookup nb c.gmap = none ∨
      ∃ gnb, List.lookup nb c.gmap = some gnb ∧ gc + 1 < gnb)
    (hxmem : (mv, nb) ∈ neighborsOf cur) (hnbvalid : ValidState nb) :
    ((setKV c.gmap nb (gc + 1)).map Prod.fst).Nodup ∧
    (∀ p ∈ setKV c.gmap nb (gc + 1), ValidState p.1) ∧
    (∀ p ∈ setKV c.gmap nb (gc + 1), p.2 < (setKV c.gmap nb (gc + 1)).length) ∧
    List.lookup s0 (setKV c.gmap nb (gc + 1)) = some 0 ∧
    (∀ k : State,
      (∃ e, List.lookup k (setKV c.camefrom nb (cur, mv)) = some e) ↔
      (k ≠ s0 ∧ ∃ v, List.lookup k (setKV c.gmap nb (gc + 1)) = some v)) ∧
    (∀ k p mv2, List.lookup k (setKV c.camefrom nb (cur, mv)) = some (p, mv2) →
      ∃ gk gp, List.lookup k (setKV c.gmap nb (gc + 1)) = some gk ∧
        List.lookup p (setKV c.gmap nb (gc + 1)) = some gp ∧
        gp < gk ∧ (mv2, k) ∈ neighborsOf p) ∧
    (∀ k : State, (∃ v, List.lookup k c.gmap = some v) →
      (∃ v, List.lookup k (setKV c.gmap nb (gc + 1)) = some v)) ∧
    List.lookup cur (setKV c.gmap nb (gc + 1)) = some gc ∧
    (setKV c.gmap nb (gc + 1)).length ≤ 362880 ∧
    c.gmap.length ≤ (setKV c.gmap nb (gc + 1)).length := by
  have hnbs0 : nb ≠ s0 := by
    intro h
    subst h
    rcases himp with h | ⟨gnb, hg, hlt⟩
    · rw [hinv.ginit] at h
      exact Option.noConfusion h
    · rw [hinv.ginit] at hg
      injection hg with h2
      omega
  have hcurnb : cur ≠ nb := by
    intro h
    subst h
    rcases himp with h | ⟨gnb, hg, hlt⟩
    · rw [hgc] at h
      exact Option.noConfusion h
    · rw [hgc] at hg
      injection hg with h2
      omega
  have hnodup : ((setKV c.gmap nb (gc + 1)).map Prod.fst).Nodup :=
    setKV_keys_nodup nb _ hinv.gkeys_nodup
  have hvalid : ∀ p ∈ setKV c.gmap nb (gc + 1), ValidState p.1 := by
    intro p hp
    rcases mem_setKV hp with rfl | ⟨hm, -⟩
    · exact hnbvalid
    · exact hinv.gkeys_valid p hm
  have hgcmem : (cur, gc) ∈ c.gmap := lookup_some_mem hgc
  have hgclt : gc < c.gmap.length := hinv.gval_lt _ hgcmem
  have hlen : (setKV c.gmap nb (gc + 1)).length = c.gmap.length ∨
      (setKV c.gmap nb (gc + 1)).length = c.gmap.length + 1 := by
    rcases himp with h | ⟨gnb, hg, -⟩
    · right
      rw [setKV_eq_cons_of_none _ h]
      simp
    · left
      exact (setKV_stats_some _ hinv.gkeys_nodup hg).1
  have hvallt : ∀ p ∈ setKV c.gmap nb (gc + 1),
      p.2 < (setKV c.gmap nb (gc + 1)).length := by
    intro p hp
    rcases mem_setKV hp with rfl | ⟨hm, -⟩
    · rcases himp with h | ⟨gnb, hg, hlt⟩
      · have : (setKV c.gmap nb (gc + 1)).length = c.gmap.length + 1 := by
          rw [setKV_eq_cons_of_none _ h]
          simp
        simp only [this]
        omega
      · have hgnbmem : (nb, gnb) ∈ c.gmap := lookup_some_mem hg
        have := hinv.gval_lt _ hgnbmem
        rcases hlen with h2 | h2 <;> simp only [h2] <;> omega
    · have := hinv.gval_lt p hm
      rcases hlen with h2 | h2 <;> simp only [h2] <;> omega
  have hginit : List.lookup s0 (setKV c.gmap nb (gc + 1)) = some 0 := by
    rw [lookup_setKV_ne c.gmap nb s0 (gc + 1) (Ne.symm hnbs0)]
    exact hinv.ginit
  have hcurlook : List.lookup cur (setKV c.gmap nb (gc + 1)) = some gc := by
    rw [lookup_setKV_ne _ _ _ _ hcurnb]
    exact hgc
  have hdommono : ∀ k : State, (∃ v, List.lookup k c.gmap = some v) →
      (∃ v, List.lookup k (setKV c.gmap nb (gc + 1)) = some v) := by
    intro k hk
    by_cases hknb : k = nb
    · subst hknb
      exact ⟨gc + 1, lookup_setKV_self _ _ _⟩
    · rw [lookup_setKV_ne _ _ _ _ hknb]
      exact hk
  have hcfdom : ∀ k : State,
      (∃ e, List.lookup k (setKV c.camefrom nb (cur, mv)) = some e) ↔
      (k ≠ s0 ∧ ∃ v, List.lookup k (setKV c.gmap nb (gc + 1)) = some v) := by
    intro k
    by_cases hknb : k = nb
    · subst hknb
      constructor
      · intro _
        exact ⟨hnbs0, gc + 1, lookup_setKV_self _ _ _⟩
      · intro _
        exact ⟨(cur, mv), lookup_setKV_self _ _ _⟩
    · rw [lookup_setKV_ne _ _ _ _ hknb, lookup_setKV_ne _ _ _ _ hknb]
      exact hinv.cf_dom k
  have hcflink : ∀ k p mv2,
      List.lookup k (setKV c.camefrom nb (cur, mv)) = some (p, mv2) →
      ∃ gk gp, List.lookup k (setKV c.gmap nb (gc + 1)) = some gk ∧
        List.lookup p (setKV c.gmap nb (gc + 1)) = some gp ∧
        gp < gk ∧ (mv2, k) ∈ neighborsOf p := by
    intro k p mv2 hk
    by_cases hknb : k = nb
    · subst hknb
      rw [lookup_setKV_self] at hk
      injection hk with h1
      obtain ⟨h2, h3⟩ := Prod.mk.injEq .. |>.mp h1.symm
      subst h2
      subst h3
      exact ⟨gc + 1, gc, lookup_setKV_self _ _ _, hcurlook, by omega, hxmem⟩
    · rw [lookup_setKV_ne _ _ _ _ hknb] at hk
      obtain ⟨gk, gp, hgk, hgp, hlt2, hmem2⟩ := hinv.cf_link k p mv2 hk
      by_cases hpnb : p = nb
      · subst hpnb
        rcases himp with h | ⟨gnb, hg, hlt3⟩
        · rw [h] at hgp
          exact Option.noConfusion hgp
        · have hgpg : gp = gnb := by
            rw [hg] at hgp
            injection hgp with h4
            omega
          refine ⟨gk, gc + 1, ?_, lookup_setKV_self _ _ _, by omega, hmem2⟩
          rw [lookup_setKV_ne _ _ _ _ hknb]
          exact hgk
      · rw [lookup_setKV_ne _ _ _ _ hknb, lookup_setKV_ne _ _ _ _ hpnb]
        exact ⟨gk, gp, hgk, hgp, hlt2, hmem2⟩
  refine ⟨hnodup, hvalid, hvallt, hginit, hcfdom, hcflink, hdommono, hcurlook,
    keys_length_le_of_valid _ hnodup hvalid, ?_⟩
  rcases hlen with h | h <;> omega

theorem relaxNeighbor_preserves {s0 cur : State} {c : Config} {x : Move × State}
    (hinv : MidInv s0 cur c) (hcur_valid : ValidState cur)
    (hcur_g : ∃ gc, List.lookup cur c.gmap = some gc)
    (hx : x ∈ neighborsOf cur) :
    MidInv s0 cur (relaxNeighbor cur c x) ∧
    phi (relaxNeighbor cur c x) ≤ phi c ∧
    (∀ k : State, (∃ v, List.lookup k c.gmap = some v) →
      ∃ v, List.lookup k (relaxNeighbor cur c x).gmap = some v) ∧
    (∀ st : State, st ∈ c.heap.map Prod.snd →
      st ∈ (relaxNeighbor cur c x).heap.map Prod.snd) ∧
    (∃ v, List.lookup x.2 (relaxNeighbor cur c x).gmap = some v) ∧
    List.lookup cur (relaxNeighbor cur c x).gmap = List.lookup cur c.gmap := by
  obtain ⟨gc, hgc⟩ := hcur_g
  have hx' : (x.1, x.2) ∈ neighborsOf cur := by rwa [Prod.mk.eta]
  have hnbvalid : ValidState x.2 := valid_of_mem_neighbors hcur_valid hx'
  have htent : (List.lookup cur c.gmap).getD 0 + 1 = gc + 1 := by
    rw [hgc]
    rfl
  rcases hgnb : List.lookup x.2 c.gmap with _ | gnb
  · -- the neighbour has no recorded g-score: fresh improving assignment
    have himp : List.lookup x.2 c.gmap = none ∨
        ∃ g2, List.lookup x.2 c.gmap = some g2 ∧
          (List.lookup cur c.gmap).getD 0 + 1 < g2 := Or.inl hgnb
    have himp' : List.lookup x.2 c.gmap = none ∨
        ∃ g2, List.lookup x.2 c.gmap = some g2 ∧ gc + 1 < g2 := Or.inl hgnb
    have hhash : x.2 ∉ c.openhash := by
      intro hmem
      obtain ⟨v, hv⟩ := hinv.hash_sub_g x.2 hmem
      rw [hgnb] at hv
      exact Option.noConfusion hv
    obtain ⟨hnodup, hvalid, hvallt, hginit, hcfdom, hcflink, hdommono,
      hcurlook, hlenle, hlenmono⟩ := improve_core hinv hgc himp' hx' hnbvalid
    rw [relaxNeighbor_push himp hhash, htent]
    have hnbheap : x.2 ∉ c.heap.map Prod.snd := fun hmem =>
      hhash ((hinv.heap_hash x.2).mp hmem)
    have hcons : setKV c.gmap x.2 (gc + 1) = (x.2, gc + 1) :: c.gmap :=
      setKV_eq_cons_of_none _ hgnb
    have hgclt : gc < c.gmap.length :=
      hinv.gval_lt _ (lookup_some_mem hgc)
    refine ⟨⟨hnodup, hvalid, hvallt, hginit, ?_, ?_, ?_, hcfdom, hcflink, ?_, ?_⟩,
      ?_, hdommono, ?_, ⟨gc + 1, lookup_setKV_self _ _ _⟩, by rw [hcurlook, hgc]⟩
    · -- heap_nodup
      simp only [List.map_cons]
      exact List.Nodup.cons hnbheap hinv.heap_nodup
    · -- heap_hash
      intro st
      simp only [List.map_cons, List.mem_cons]
      rw [hinv.heap_hash st]
    · -- hash_sub_g
      intro st hst
      rcases List.mem_cons.mp hst with rfl | hst
      · exact ⟨gc + 1, lookup_setKV_self _ _ _⟩
      · exact hdommono st (hinv.hash_sub_g st hst)
    · -- midclosure
      intro p hp
      rcases mem_setKV hp with rfl | ⟨hm, -⟩
      · right
        left
        simp
      · rcases hinv.midclosure p hm with h | h | h
        · exact Or.inl h
        · right
          left
          simp only [List.map_cons, List.mem_cons]
          exact Or.inr h
        · right
          right
          intro y hy
          exact hdommono y.2 (h y hy)
    · -- goal_heap
      intro ⟨v, hv⟩
      simp only [List.map_cons, List.mem_cons]
      by_cases hgl : goalState = x.2
      · exact Or.inl hgl
      · rw [lookup_setKV_ne _ _ _ _ hgl] at hv
        exact Or.inr (hinv.goal_heap ⟨v, hv⟩)
    · -- phi decreases (weakly)
      unfold phi gpotSum
      simp only [hcons, List.map_cons, List.sum_cons, List.length_cons]
      have hle2 : (setKV c.gmap x.2 (gc + 1)).length ≤ 362880 := hlenle
      rw [hcons] at hle2
      simp only [List.length_cons] at hle2
      omega
    · -- heap states monotone
      intro st hst
      simp only [List.map_cons, List.mem_cons]
      exact Or.inr hst
  · -- the neighbour has a recorded g-score
    by_cases hlt : gc + 1 < gnb
    · -- improving update
      have himp : List.lookup x.2 c.gmap = none ∨
          ∃ g2, List.lookup x.2 c.gmap = some g2 ∧
            (List.lookup cur c.gmap).getD 0 + 1 < g2 := by
        right
        exact ⟨gnb, hgnb, by rw [htent]; exact hlt⟩
      have himp' : List.lookup x.2 c.gmap = none ∨
          ∃ g2, List.lookup x.2 c.gmap = some g2 ∧ gc + 1 < g2 :=
        Or.inr ⟨gnb, hgnb, hlt⟩
      obtain ⟨hnodup, hvalid, hvallt, hginit, hcfdom, hcflink, hdommono,
        hcurlook, hlenle, hlenmono⟩ := improve_core hinv hgc himp' hx' hnbvalid
      obtain ⟨hlenstat, hsumstat⟩ :=
        setKV_stats_some (gc + 1) hinv.gkeys_nodup hgnb
      by_cases hhash : x.2 ∈ c.openhash
      · -- present in the frontier: only the maps change
        rw [relaxNeighbor_update himp hhash, htent]
        refine ⟨⟨hnodup, hvalid, hvallt, hginit, hinv.heap_nodup, ?_, ?_,
          hcfdom, hcflink, ?_, ?_⟩, ?_, hdommono, fun st h => h,
          ⟨gc + 1, lookup_setKV_self _ _ _⟩, by rw [hcurlook, hgc]⟩
        · exact hinv.heap_hash
        · intro st hst
          exact hdommono st (hinv.hash_sub_g st hst)
        · intro p hp
          rcases mem_setKV hp with rfl | ⟨hm, -⟩
          · right
            left
            exact (hinv.heap_hash x.2).mpr hhash
          · rcases hinv.midclosure p hm with h | h | h
            · exact Or.inl h
            · exact Or.inr (Or.inl h)
            · right
              right
              intro y hy
              exact hdommono y.2 (h y hy)
        · intro ⟨v, hv⟩
          by_cases hgl : goalState = x.2
          · rw [hgl]
            exact (hinv.heap_hash x.2).mpr hhash
          · rw [lookup_setKV_ne _ _ _ _ hgl] at hv
            exact hinv.goal_heap ⟨v, hv⟩
        · unfold phi gpotSum
          simp only
          omega
      · -- absent from the frontier: maps change and the entry is pushed
        rw [relaxNeighbor_push himp hhash, htent]
        have hnbheap : x.2 ∉ c.heap.map Prod.snd := fun hmem =>
          hhash ((hinv.heap_hash x.2).mp hmem)
        refine ⟨⟨hnodup, hvalid, hvallt, hginit, ?_, ?_, ?_, hcfdom, hcflink,
          ?_, ?_⟩, ?_, hdommono, ?_, ⟨gc + 1, lookup_setKV_self _ _ _⟩,
          by rw [hcurlook, hgc]⟩
        · simp only [List.map_cons]
          exact List.Nodup.cons hnbheap hinv.heap_nodup
        · intro st
          simp only [List.map_cons, List.mem_cons]
          rw [hinv.heap_hash st]
        · intro st hst
          rcases List.mem_cons.mp hst with rfl | hst
          · exact ⟨gc + 1, lookup_setKV_self _ _ _⟩
          · exact hdommono st (hinv.hash_sub_g st hst)
        · intro p hp
          rcases mem_setKV hp with rfl | ⟨hm, -⟩
          · right
            left
            simp
          · rcases hinv.midclosure p hm with h | h | h
            · exact Or.inl h
            · right
              left
              simp only [List.map_cons, List.mem_cons]
              exact Or.inr h
            · right
              right
              intro y hy
              exact hdommono y.2 (h y hy)
        · intro ⟨v, hv⟩
          simp only [List.map_cons, List.mem_cons]
          by_cases hgl : goalState = x.2
          · exact Or.inl hgl
          · rw [lookup_setKV_ne _ _ _ _ hgl] at hv
            exact Or.inr (hinv.goal_heap ⟨v, hv⟩)
        · unfold phi gpotSum
          simp only [List.length_cons]
          omega
        · intro st hst
          simp only [List.map_cons, List.mem_cons]
          exact Or.inr hst
    · -- no improvement: the configuration is unchanged
      rw [relaxNeighbor_no_improve hgnb (by rw [htent]; exact hlt)]
      exact ⟨hinv, le_refl _, fun k h => h, fun st h => h, ⟨gnb, hgnb⟩, rfl⟩

theorem foldl_relax_preserves {s0 cur : State} :
    ∀ (L : List (Move × State)) (c : Config),
      (∀ x ∈ L, x ∈ neighborsOf cur) →
      MidInv s0 cur c → ValidState cur →
      (∃ gc, List.lookup cur c.gmap = some gc) →
      MidInv s0 cur (L.foldl (relaxNeighbor cur) c) ∧
      phi (L.foldl (relaxNeighbor cur) c) ≤ phi c ∧
      (∀ k : State, (∃ v, List.lookup k c.gmap = some v) →
        ∃ v, List.lookup k (L.foldl (relaxNeighbor cur) c).gmap = some v) ∧
      (∀ st : State, st ∈ c.heap.map Prod.snd →
        st ∈ (L.foldl (relaxNeighbor cur) c).heap.map Prod.snd) ∧
      (∀ x ∈ L, ∃ v, List.lookup x.2 (L.foldl (relaxNeighbor cur) c).gmap = some v) := by
  intro L
  induction L with
  | nil =>
    intro c _ hinv _ _
    exact ⟨hinv, le_refl _, fun k h => h, fun st h => h, by simp⟩
  | cons x L ih =>
    intro c hL hinv hval hg
    have hx : x ∈ neighborsOf cur := hL x (List.mem_cons_self x L)
    obtain ⟨hinv1, hphi1, hdom1, hheap1, hx1, hcur1⟩ :=
      relaxNeighbor_preserves hinv hval ⟨_, hg.choose_spec⟩ hx
    have hg1 : ∃ gc, List.lookup cur (relaxNeighbor cur c x).gmap = some gc := by
      rw [hcur1]
      exact hg
    obtain ⟨hinv2, hphi2, hdom2, hheap2, hrest2⟩ :=
      ih (relaxNeighbor cur c x) (fun y hy => hL y (List.mem_cons_of_mem x hy))
        hinv1 hval hg1
    rw [List.foldl_cons]
    refine ⟨hinv2, le_trans hphi2 hphi1, fun k h => hdom2 k (hdom1 k h),
      fun st h => hheap2 st (hheap1 st h), ?_⟩
    intro y hy
    rcases List.mem_cons.mp hy with rfl | hy
    · exact hdom2 y.2 hx1
    · exact hrest2 y hy

theorem iteration_preserves {s0 : State} {c : Config} {e : Int × State}
    {rest : List (Int × State)} (hinv : LoopInv s0 c)
    (hpop : popMin c.heap = some (e, rest)) (hne : e.2 ≠ goalState) :
    LoopInv s0 (expandState e.2
      { c with heap := rest, openhash := hashErase c.openhash e.2 }) ∧
    phi (expandState e.2
      { c with heap := rest, openhash := hashErase c.openhash e.2 }) < phi c := by
  have hperm : c.heap.Perm (e :: rest) := popMin_perm hpop
  have hpermmap : (c.heap.map Prod.snd).Perm (e.2 :: rest.map Prod.snd) :=
    hperm.map Prod.snd
  have hcurheap : e.2 ∈ c.heap.map Prod.snd :=
    hpermmap.mem_iff.mpr (List.mem_cons_self _ _)
  have hcurhash : e.2 ∈ c.openhash := (hinv.heap_hash e.2).mp hcurheap
  obtain ⟨gc, hgc⟩ := hinv.hash_sub_g e.2 hcurhash
  have hcurvalid : ValidState e.2 :=
    hinv.gkeys_valid _ (lookup_some_mem hgc)
  have hconsnodup : (e.2 :: rest.map Prod.snd).Nodup :=
    (List.Perm.nodup_iff hpermmap).mp hinv.heap_nodup
  have hrestnodup : (rest.map Prod.snd).Nodup := (List.nodup_cons.mp hconsnodup).2
  have hcurnotrest : e.2 ∉ rest.map Prod.snd := (List.nodup_cons.mp hconsnodup).1
  have hmid : MidInv s0 e.2
      { c with heap := rest, openhash := hashErase c.openhash e.2 } := by
    refine ⟨hinv.gkeys_nodup, hinv.gkeys_valid, hinv.gval_lt, hinv.ginit,
      hrestnodup, ?_, ?_, hinv.cf_dom, hinv.cf_link, ?_, ?_⟩
    · intro st
      show st ∈ rest.map Prod.snd ↔ st ∈ hashErase c.openhash e.2
      rw [mem_hashErase]
      by_cases hst : st = e.2
      · subst hst
        simp [hcurnotrest]
      · constructor
        · intro h
          exact ⟨(hinv.heap_hash st).mp (hpermmap.mem_iff.mpr
            (List.mem_cons_of_mem _ h)), hst⟩
        · rintro ⟨h, -⟩
          have := hpermmap.mem_iff.mp ((hinv.heap_hash st).mpr h)
          rcases List.mem_cons.mp this with h2 | h2
          · exact absurd h2 hst
          · exact h2
    · intro st hst
      exact hinv.hash_sub_g st (mem_hashErase.mp hst).1
    · intro p hp
      rcases hinv.closure p hp with h | h
      · have := hpermmap.mem_iff.mp h
        rcases List.mem_cons.mp this with h2 | h2
        · exact Or.inl h2
        · exact Or.inr (Or.inl h2)
      · exact Or.inr (Or.inr h)
    · intro hgl
      have := hpermmap.mem_iff.mp (hinv.goal_heap hgl)
      rcases List.mem_cons.mp this with h2 | h2
      · exact absurd h2.symm (by simpa using hne)
      · exact h2
  obtain ⟨hinv2, hphi2, hdom2, hheap2, hnbs2⟩ :=
    foldl_relax_preserves (neighborsOf e.2)
      { c with heap := rest, openhash := hashErase c.openhash e.2 }
      (fun x hx => hx) hmid hcurvalid ⟨gc, hgc⟩
  have hlen : c.heap.length = rest.length + 1 := by
    rw [hperm.length_eq]
    simp
  constructor
  · refine ⟨hinv2.gkeys_nodup, hinv2.gkeys_valid, hinv2.gval_lt, hinv2.ginit,
      hinv2.heap_nodup, hinv2.heap_hash, hinv2.hash_sub_g, hinv2.cf_dom,
      hinv2.cf_link, ?_, hinv2.goal_heap⟩
    intro p hp
    rcases hinv2.midclosure p hp with h | h | h
    · right
      intro x hx
      rw [h] at hx
      exact hnbs2 x hx
    · exact Or.inl h
    · exact Or.inr h
  · have hphic1 : phi { c with heap := rest, openhash := hashErase c.openhash e.2 } + 1 = phi c := by
      unfold phi gpotSum
      simp only
      omega
    unfold expandState
    omega

/-! ## Replaying moves -/

theorem replayMoves_nil (s : State) : replayMoves s [] = some s := rfl

theorem replayMoves_append (s : State) (l1 l2 : MovePath) :
    replayMoves s (l1 ++ l2) =
      (replayMoves s l1).bind (fun t => replayMoves t l2) := by
  unfold replayMoves
  rw [List.foldlM_append]
  rfl

theorem replayMoves_singleton (s : State) (mv : Move) :
    replayMoves s [mv] = applyMove s mv := by
  unfold replayMoves
  rw [List.foldlM_cons]
  show (applyMove s mv).bind (fun t => List.foldlM applyMove t []) = applyMove s mv
  cases applyMove s mv <;> rfl

/-- The replay of a generated neighbour's move from its source state yields
exactly that neighbour. -/
theorem applyMove_of_mem_neighbors {s : State} {mv : Move} {nb : State}
    (hs : ValidState s) (h : (mv, nb) ∈ neighborsOf s) :
    applyMove s mv = some nb := by
  obtain ⟨i, ti, hi, hti, hne, hei, hblank, hnb, hmv, hadj, -⟩ := step_decomp hs h
  obtain ⟨i2, hei2, hi2, hfind, -⟩ := emptyIndexOf_spec hs
  have hii : i2 = i := by
    rw [hei2] at hei
    exact_mod_cast hei
  subst hii
  simp only [applyMove, hfind, hmv]
  have hcond : (0 ≤ ((ti / 3 : Nat) : Int) ∧ ((ti / 3 : Nat) : Int) < 3 ∧
      0 ≤ ((ti % 3 : Nat) : Int) ∧ ((ti % 3 : Nat) : Int) < 3 ∧
      |((i2 / 3 : Nat) : Int) - ((ti / 3 : Nat) : Int)| +
        |((i2 % 3 : Nat) : Int) - ((ti % 3 : Nat) : Int)| = 1) := by
    refine ⟨by positivity, by exact_mod_cast Nat.div_lt_of_lt_mul (by omega),
      by positivity, by exact_mod_cast Nat.mod_lt ti (by norm_num), hadj⟩
  rw [if_pos hcond]
  have hidx : (((ti / 3 : Nat) : Int) * 3 + ((ti % 3 : Nat) : Int)).toNat = ti := by
    omega
  rw [hidx, hnb]

/-- An accepted replay move corresponds to a generated neighbour. -/
theorem applyMove_mem_neighbors {s : State} {mv : Move} {u : State}
    (hs : ValidState s) (h : applyMove s mv = some u) :
    (mv, u) ∈ neighborsOf s := by
  obtain ⟨i, hei, hi9, hfind, hblank⟩ := emptyIndexOf_spec hs
  simp only [applyMove, hfind] at h
  split_ifs at h with hcond
  · obtain ⟨h1, h2, h3, h4, h5⟩ := hcond
    injection h with h6
    rw [mem_neighborsOf_iff]
    refine ⟨(mv.1 - emptyIndexOf s / gridSize,
      mv.2 - emptyIndexOf s % gridSize), ?_, ?_, ?_⟩
    · rw [hei]
      simp only [gridSize]
      have her : (i : Int) / 3 = ((i / 3 : Nat) : Int) := by omega
      have hec : (i : Int) % 3 = ((i % 3 : Nat) : Int) := by omega
      rw [her, hec]
      simp only [moveOffsets, List.mem_cons, List.not_mem_nil, or_false,
        Prod.mk.injEq]
      rcases abs_cases (((i / 3 : Nat) : Int) - mv.1) with ⟨ha, ha2⟩ | ⟨ha, ha2⟩ <;>
        rcases abs_cases (((i % 3 : Nat) : Int) - mv.2) with ⟨hb, hb2⟩ | ⟨hb, hb2⟩ <;>
        rw [ha, hb] at h5 <;> omega
    · rw [hei]
      show 0 ≤ (i : Int) / gridSize + (mv.1 - (i : Int) / gridSize) ∧
        (i : Int) / gridSize + (mv.1 - (i : Int) / gridSize) < gridSize ∧
        0 ≤ (i : Int) % gridSize + (mv.2 - (i : Int) % gridSize) ∧
        (i : Int) % gridSize + (mv.2 - (i : Int) % gridSize) < gridSize
      simp only [gridSize]
      have ha : (i : Int) / 3 + (mv.1 - (i : Int) / 3) = mv.1 := by ring
      have hb : (i : Int) % 3 + (mv.2 - (i : Int) % 3) = mv.2 := by ring
      rw [ha, hb]
      exact ⟨h1, h2, h3, h4⟩
    · rw [hei]
      show (((i : Int) / gridSize + (mv.1 - (i : Int) / gridSize),
          (i : Int) % gridSize + (mv.2 - (i : Int) % gridSize)),
        swapAt s ((i : Int)).toNat
          (((i : Int) / gridSize + (mv.1 - (i : Int) / gridSize)) * gridSize +
            ((i : Int) % gridSize + (mv.2 - (i : Int) % gridSize))).toNat) = (mv, u)
      simp only [gridSize]
      have ha : (i : Int) / 3 + (mv.1 - (i : Int) / 3) = mv.1 := by ring
      have hb : (i : Int) % 3 + (mv.2 - (i : Int) % 3) = mv.2 := by ring
      rw [ha, hb, Int.toNat_natCast, h6]

theorem replayMoves_reach :
    ∀ (p : MovePath) (s t : State), ValidState s → replayMoves s p = some t →
      ReachN s p.length t ∧ ValidState t := by
  intro p
  induction p with
  | nil =>
    intro s t hs h
    rw [replayMoves_nil] at h
    injection h with h2
    subst h2
    exact ⟨ReachN.refl s, hs⟩
  | cons mv p ih =>
    intro s t hs h
    unfold replayMoves at h
    rw [List.foldlM_cons] at h
    cases happ : applyMove s mv with
    | none =>
      rw [happ] at h
      exact absurd h (by simp)
    | some u =>
      rw [happ] at h
      have hstep : Step s u :=
        step_iff.mpr ⟨mv, applyMove_mem_neighbors hs happ⟩
      have hu : ValidState u := step_valid hs hstep
      obtain ⟨hr, ht⟩ := ih u t hu h
      exact ⟨ReachN.head hstep hr, ht⟩

/-! ## Exhaustion of the frontier -/

theorem reach_mem_closed {m : List (State × Nat)}
    (hclosed : ∀ p ∈ m, ∀ x ∈ neighborsOf p.1,
      ∃ v, List.lookup x.2 m = some v) :
    ∀ {s u : State} {n : Nat}, ReachN s n u →
      (∃ v, List.lookup s m = some v) → ∃ v, List.lookup u m = some v := by
  intro s u n h
  induction h with
  | refl s => exact id
  | @head s t u n hst hr ih =>
    intro hs
    apply ih
    obtain ⟨v, hv⟩ := hs
    obtain ⟨mv, hmv⟩ := step_iff.mp hst
    exact hclosed (s, v) (lookup_some_mem hv) (mv, t) hmv

theorem not_reachable_of_exhausted {s0 : State} {c : Config}
    (hinv : LoopInv s0 c) (hempty : c.heap = []) :
    ¬ Reachable s0 goalState := by
  rintro ⟨n, hr⟩
  have hclosed : ∀ p ∈ c.gmap, ∀ x ∈ neighborsOf p.1,
      ∃ v, List.lookup x.2 c.gmap = some v := by
    intro p hp
    rcases hinv.closure p hp with h | h
    · rw [hempty] at h
      simp at h
    · exact h
  have hgoal : ∃ v, List.lookup goalState c.gmap = some v :=
    reach_mem_closed hclosed hr ⟨0, hinv.ginit⟩
  have := hinv.goal_heap hgoal
  rw [hempty] at this
  simp at this

/-! ## Correctness of path reconstruction -/

theorem reconstructAux_correct {s0 : State} {c : Config} (hinv : LoopInv s0 c)
    (hs0 : ValidState s0) :
    ∀ (gv : Nat) (cur : State) (acc : MovePath) (fuel : Nat),
      List.lookup cur c.gmap = some gv → gv ≤ fuel →
      ∃ moves, reconstructAux fuel c.camefrom cur acc = moves ++ acc ∧
        replayMoves s0 moves = some cur := by
  intro gv
  induction gv using Nat.strong_induction_on with
  | _ gv ih =>
    intro cur acc fuel hcur hfuel
    rcases hcf : List.lookup cur c.camefrom with _ | e
    · -- no predecessor record: `cur` is the initial state
      have hcur0 : cur = s0 := by
        by_contra hne
        have := (hinv.cf_dom cur).mpr ⟨hne, gv, hcur⟩
        obtain ⟨e, he⟩ := this
        rw [hcf] at he
        exact Option.noConfusion he
      subst hcur0
      refine ⟨[], ?_, replayMoves_nil _⟩
      cases fuel with
      | zero => rfl
      | succ f =>
        show reconstructAux (f + 1) c.camefrom cur acc = [] ++ acc
        simp only [reconstructAux, hcf, List.nil_append]
    · obtain ⟨p, mv⟩ := e
      obtain ⟨gk, gp, hgk, hgp, hlt, hmem⟩ := hinv.cf_link cur p mv hcf
      have hgkgv : gk = gv := by
        rw [hcur] at hgk
        injection hgk with h2
        omega
      subst hgkgv
      have hfuel1 : 1 ≤ fuel := by omega
      obtain ⟨f, rfl⟩ : ∃ f, fuel = f + 1 :=
        ⟨fuel - 1, by omega⟩
      have hvalidp : ValidState p :=
        hinv.gkeys_valid _ (lookup_some_mem hgp)
      obtain ⟨moves2, hrec2, hreplay2⟩ :=
        ih gp hlt p (mv :: acc) f hgp (by omega)
      refine ⟨moves2 ++ [mv], ?_, ?_⟩
      · show reconstructAux (f + 1) c.camefrom cur acc = (moves2 ++ [mv]) ++ acc
        simp only [reconstructAux, hcf]
        rw [hrec2, List.append_assoc, List.singleton_append]
      · rw [replayMoves_append, hreplay2]
        show replayMoves p [mv] = some cur
        rw [replayMoves_singleton]
        exact applyMove_of_mem_neighbors hvalidp hmem

theorem gmap_le_cf_succ {s0 : State} {c : Config} (hinv : LoopInv s0 c) :
    c.gmap.length ≤ c.camefrom.length + 1 := by
  have hsub : (c.gmap.map Prod.fst).toFinset ⊆
      (s0 :: c.camefrom.map Prod.fst).toFinset := by
    intro k hk
    rw [List.mem_toFinset] at hk ⊢
    have hx : ∃ v, List.lookup k c.gmap = some v :=
      (lookup_isSome_iff_mem_keys _ _).mpr hk
    by_cases hks0 : k = s0
    · rw [hks0]
      exact List.mem_cons_self _ _
    · have := (hinv.cf_dom k).mpr ⟨hks0, hx⟩
      exact List.mem_cons_of_mem _ ((lookup_isSome_iff_mem_keys _ _).mp this)
  have h1 : (c.gmap.map Prod.fst).toFinset.card = (c.gmap.map Prod.fst).length :=
    List.toFinset_card_of_nodup hinv.gkeys_nodup
  have h2 := Finset.card_le_card hsub
  have h3 := (s0 :: c.camefrom.map Prod.fst).toFinset_card_le
  have h4 : (c.gmap.map Prod.fst).length = c.gmap.length := List.length_map _ _
  have h5 : (s0 :: c.camefrom.map Prod.fst).length = c.camefrom.length + 1 := by
    simp
  omega

theorem reconstruct_correct {s0 : State} {c : Config} (hinv : LoopInv s0 c)
    (hs0 : ValidState s0) {gv : Nat}
    (hgoal : List.lookup goalState c.gmap = some gv) :
    replayMoves s0 (reconstruct_move_path c.camefrom goalState) =
      some goalState := by
  have hlt : gv < c.gmap.length := hinv.gval_lt _ (lookup_some_mem hgoal)
  have hle : gv ≤ c.camefrom.length := by
    have := gmap_le_cf_succ hinv
    omega
  obtain ⟨moves, hrec, hreplay⟩ :=
    reconstructAux_correct hinv hs0 gv goalState [] c.camefrom.length hgoal hle
  unfold reconstruct_move_path
  rw [hrec, List.append_nil]
  exact hreplay

/-! ## The loop terminates within the fuel bound -/

theorem solveLoop_isSome {s0 : State} :
    ∀ (fuel : Nat) (c : Config), LoopInv s0 c → phi c < fuel →
      (solveLoop fuel c).isSome := by
  intro fuel
  induction fuel with
  | zero =>
    intro c _ h
    omega
  | succ f ih =>
    intro c hinv hphi
    simp only [solveLoop]
    cases hpop : popMin c.heap with
    | none => simp
    | some pr =>
      obtain ⟨e, rest⟩ := pr
      simp only
      by_cases hg : e.2 = goalState
      · rw [if_pos hg]
        simp
      · rw [if_neg hg]
        obtain ⟨hinv2, hphi2⟩ := iteration_preserves hinv hpop hg
        exact ih _ hinv2 (by omega)

/-! ## Soundness of the loop's results -/

theorem solveLoop_sound {s0 : State} (hs0 : ValidState s0) :
    ∀ (fuel : Nat) (c : Config) (r : Option MovePath),
      LoopInv s0 c → solveLoop fuel c = some r →
      (r = none → ¬ Reachable s0 goalState) ∧
      (∀ p, r = some p → replayMoves s0 p = some goalState) := by
  intro fuel
  induction fuel with
  | zero =>
    intro c r _ h
    exact absurd h (by simp [solveLoop])
  | succ f ih =>
    intro c r hinv h
    simp only [solveLoop] at h
    cases hpop : popMin c.heap with
    | none =>
      rw [hpop] at h
      simp only [Option.some.injEq] at h
      subst h
      refine ⟨fun _ => not_reachable_of_exhausted hinv
        ((popMin_eq_none_iff _).mp hpop), ?_⟩
      intro p hp
      exact absurd hp (by simp)
    | some pr =>
      obtain ⟨e, rest⟩ := pr
      rw [hpop] at h
      simp only at h
      by_cases hg : e.2 = goalState
      · rw [if_pos hg] at h
        simp only [Option.some.injEq] at h
        subst h
        refine ⟨fun hcon => absurd hcon (by simp), ?_⟩
        intro p hp
        simp only [Option.some.injEq] at hp
        subst hp
        have hheap : e.2 ∈ c.heap.map Prod.snd :=
          ((popMin_perm hpop).map Prod.snd).mem_iff.mpr (List.mem_cons_self _ _)
        obtain ⟨gv, hgv⟩ := hinv.hash_sub_g e.2 ((hinv.heap_hash e.2).mp hheap)
        rw [hg] at hgv
        rw [hg]
        exact reconstruct_correct hinv hs0 hgv
      · rw [if_neg hg] at h
        obtain ⟨hinv2, -⟩ := iteration_preserves hinv hpop hg
        exact ih _ r hinv2 h

/-! ## Inversion counting -/

theorem inversions_append (u w : List Int) :
    inversions (u ++ w) = inversions u + inversions w + crossInv u w := by
  induction u with
  | nil => simp [inversions, crossInv]
  | cons a u ih =>
    show inversions (a :: (u ++ w)) = inversions (a :: u) + inversions w +
      crossInv (a :: u) w
    simp only [inversions, crossInv, List.map_cons, List.sum_cons,
      List.countP_append] at ih ⊢
    omega

theorem crossInv_cons_right (v : List Int) (y : Int) (w : List Int) :
    crossInv v (y :: w) = v.countP (fun c => decide (y < c)) + crossInv v w := by
  induction v with
  | nil => simp [crossInv]
  | cons c v ih =>
    simp only [crossInv, List.map_cons, List.sum_cons, List.countP_cons] at ih ⊢
    by_cases h : y < c <;> simp [h] at ih ⊢ <;> omega

theorem crossInv_perm_right (u : List Int) {w w' : List Int} (h : w.Perm w') :
    crossInv u w = crossInv u w' := by
  induction u with
  | nil => rfl
  | cons a u ih =>
    simp only [crossInv, List.map_cons, List.sum_cons] at ih ⊢
    rw [h.countP_eq, ih]

theorem countP_lt_add_gt {v : List Int} {a : Int} (hva : ∀ c ∈ v, c ≠ a) :
    v.countP (fun c => decide (c < a)) + v.countP (fun c => decide (a < c)) =
      v.length := by
  induction v with
  | nil => rfl
  | cons c v ih =>
    have hca : c ≠ a := hva c (List.mem_cons_self c v)
    have ih2 := ih (fun d hd => hva d (List.mem_cons_of_mem c hd))
    simp only [List.countP_cons, List.length_cons]
    rcases lt_trichotomy c a with h | h | h
    · have h2 : ¬ a < c := by omega
      simp [h, h2]
      omega
    · exact absurd h hca
    · have h2 : ¬ c < a := by omega
      simp [h, h2]
      omega

theorem inversions_swap_mod2 (u v w : List Int) (a b : Int) (hab : a ≠ b)
    (hva : ∀ c ∈ v, c ≠ a) (hvb : ∀ c ∈ v, c ≠ b) :
    (inversions (u ++ a :: (v ++ b :: w)) + 1) % 2 =
      inversions (u ++ b :: (v ++ a :: w)) % 2 := by
  have p1 : (v ++ b :: w).Perm (b :: (v ++ w)) := List.perm_middle
  have p2 : (v ++ a :: w).Perm (a :: (v ++ w)) := List.perm_middle
  have hperm : (a :: (v ++ b :: w)).Perm (b :: (v ++ a :: w)) :=
    ((p1.cons a).trans (List.Perm.swap b a (v ++ w))).trans ((p2.cons b).symm)
  have hA := countP_lt_add_gt hva
  have hB := countP_lt_add_gt hvb
  have q1 : inversions (u ++ a :: (v ++ b :: w)) =
      inversions u + inversions (a :: (v ++ b :: w)) +
        crossInv u (a :: (v ++ b :: w)) := inversions_append u _
  have q2 : inversions (u ++ b :: (v ++ a :: w)) =
      inversions u + inversions (b :: (v ++ a :: w)) +
        crossInv u (b :: (v ++ a :: w)) := inversions_append u _
  have q3 : crossInv u (a :: (v ++ b :: w)) = crossInv u (b :: (v ++ a :: w)) :=
    crossInv_perm_right u hperm
  have q4 : inversions (a :: (v ++ b :: w)) =
      (v ++ b :: w).countP (fun c => decide (c < a)) +
        inversions (v ++ b :: w) := rfl
  have r4 : inversions (b :: (v ++ a :: w)) =
      (v ++ a :: w).countP (fun c => decide (c < b)) +
        inversions (v ++ a :: w) := rfl
  have q5 : (v ++ b :: w).countP (fun c => decide (c < a)) =
      v.countP (fun c => decide (c < a)) +
        (b :: w).countP (fun c => decide (c < a)) := List.countP_append _ _ _
  have r5 : (v ++ a :: w).countP (fun c => decide (c < b)) =
      v.countP (fun c => decide (c < b)) +
        (a :: w).countP (fun c => decide (c < b)) := List.countP_append _ _ _
  have q7 : inversions (v ++ b :: w) =
      inversions v + inversions (b :: w) + crossInv v (b :: w) :=
    inversions_append v _
  have r7 : inversions (v ++ a :: w) =
      inversions v + inversions (a :: w) + crossInv v (a :: w) :=
    inversions_append v _
  have q8 : inversions (b :: w) =
      w.countP (fun c => decide (c < b)) + inversions w := rfl
  have r8 : inversions (a :: w) =
      w.countP (fun c => decide (c < a)) + inversions w := rfl
  have q9 : crossInv v (b :: w) =
      v.countP (fun c => decide (b < c)) + crossInv v w := crossInv_cons_right v b w
  have r9 : crossInv v (a :: w) =
      v.countP (fun c => decide (a < c)) + crossInv v w := crossInv_cons_right v a w
  rcases lt_trichotomy a b with h | h | h
  · have q6 : (b :: w).countP (fun c => decide (c < a)) =
        w.countP (fun c => decide (c < a)) := by
      rw [List.countP_cons]
      have hd : (decide (b < a)) = false := by
        simp only [decide_eq_false_iff_not]
        omega
      simp [hd]
    have r6 : (a :: w).countP (fun c => decide (c < b)) =
        w.countP (fun c => decide (c < b)) + 1 := by
      rw [List.countP_cons]
      have hd : (decide (a < b)) = true := by simpa using h
      simp [hd]
    omega
  · exact absurd h hab
  · have q6 : (b :: w).countP (fun c => decide (c < a)) =
        w.countP (fun c => decide (c < a)) + 1 := by
      rw [List.countP_cons]
      have hd : (decide (b < a)) = true := by simpa using h
      simp [hd]
    have r6 : (a :: w).countP (fun c => decide (c < b)) =
        w.countP (fun c => decide (c < b)) := by
      rw [List.countP_cons]
      have hd : (decide (a < b)) = false := by
        simp only [decide_eq_false_iff_not]
        omega
      simp [hd]
    omega

theorem set_decomp :
    ∀ (tl : List Int) (j : Nat), j < tl.length →
      ∃ v w, tl = v ++ tl.getD j 0 :: w ∧
        ∀ z : Int, tl.set j z = v ++ z :: w := by
  intro tl
  induction tl with
  | nil =>
    intro j h
    simp at h
  | cons x tl ih =>
    intro j h
    cases j with
    | zero => exact ⟨[], tl, by simp, fun z => by simp⟩
    | succ j2 =>
      obtain ⟨v, w, hdec, hset⟩ := ih j2 (by simpa using h)
      refine ⟨x :: v, w, ?_, ?_⟩
      · show x :: tl = x :: v ++ (x :: tl).getD (j2 + 1) 0 :: w
        simp only [List.getD_cons_succ, List.cons_append]
        exact congrArg (x :: ·) hdec
      · intro z
        show (x :: tl).set (j2 + 1) z = (x :: v) ++ z :: w
        rw [List.set_cons_succ, hset z]
        simp

theorem swapAt_decomp :
    ∀ (s : List Int) (i j : Nat), i < j → j < s.length →
      ∃ u v w, s = u ++ s.getD i 0 :: (v ++ s.getD j 0 :: w) ∧
        swapAt s i j = u ++ s.getD j 0 :: (v ++ s.getD i 0 :: w) := by
  intro s
  induction s with
  | nil =>
    intro i j _ hj
    simp at hj
  | cons x tl ih =>
    intro i j hij hj
    cases i with
    | zero =>
      obtain ⟨j2, rfl⟩ : ∃ j2, j = j2 + 1 := ⟨j - 1, by omega⟩
      obtain ⟨v, w, hdec, hset⟩ := set_decomp tl j2 (by simpa using hj)
      refine ⟨[], v, w, ?_, ?_⟩
      · show x :: tl = [] ++ (x :: tl).getD 0 0 :: (v ++ (x :: tl).getD (j2 + 1) 0 :: w)
        simp only [List.getD_cons_zero, List.getD_cons_succ, List.nil_append]
        exact congrArg (x :: ·) hdec
      · show swapAt (x :: tl) 0 (j2 + 1) =
          [] ++ (x :: tl).getD (j2 + 1) 0 :: (v ++ (x :: tl).getD 0 0 :: w)
        have h1 : swapAt (x :: tl) 0 (j2 + 1) = tl.getD j2 0 :: tl.set j2 x := by
          simp [swapAt]
        rw [h1, hset x]
        simp
    | succ i2 =>
      obtain ⟨j2, rfl⟩ : ∃ j2, j = j2 + 1 := ⟨j - 1, by omega⟩
      obtain ⟨u, v, w, hdec, hswap⟩ :=
        ih i2 j2 (by omega) (by simpa using hj)
      refine ⟨x :: u, v, w, ?_, ?_⟩
      · show x :: tl = (x :: u) ++ (x :: tl).getD (i2 + 1) 0 ::
          (v ++ (x :: tl).getD (j2 + 1) 0 :: w)
        simp only [List.getD_cons_succ, List.cons_append]
        exact congrArg (x :: ·) hdec
      · show swapAt (x :: tl) (i2 + 1) (j2 + 1) =
          (x :: u) ++ (x :: tl).getD (j2 + 1) 0 ::
            (v ++ (x :: tl).getD (i2 + 1) 0 :: w)
        have h1 : swapAt (x :: tl) (i2 + 1) (j2 + 1) = x :: swapAt tl i2 j2 := by
          simp [swapAt]
        rw [h1, hswap]
        simp

theorem inversions_swapAt_mod2 {s : State} (hnodup : s.Nodup) {i j : Nat}
    (hij : i < j) (hj : j < s.length) :
    (inversions (swapAt s i j) + 1) % 2 = inversions s % 2 := by
  obtain ⟨u, v, w, hdec, hswap⟩ := swapAt_decomp s i j hij hj
  have hnd2 : (u ++ s.getD i 0 :: (v ++ s.getD j 0 :: w)).Nodup := by
    rw [← hdec]
    exact hnodup
  have hnd3 : (s.getD i 0 :: (v ++ s.getD j 0 :: w)).Nodup :=
    hnd2.of_append_right
  obtain ⟨hnotmem, hnd4⟩ := List.nodup_cons.mp hnd3
  have hab : s.getD i 0 ≠ s.getD j 0 := by
    intro hc
    exact hnotmem (by rw [hc]; exact List.mem_append_right _ (List.mem_cons_self _ _))
  have hva : ∀ c ∈ v, c ≠ s.getD i 0 := by
    intro c hc he
    exact hnotmem (he ▸ List.mem_append_left _ hc)
  have hvb : ∀ c ∈ v, c ≠ s.getD j 0 := by
    obtain ⟨-, -, hdisj⟩ := List.nodup_append.mp hnd4
    intro c hc he
    exact hdisj hc (he ▸ List.mem_cons_self _ _)
  rw [hswap]
  conv_rhs => rw [hdec]
  exact inversions_swap_mod2 u v w (s.getD j 0) (s.getD i 0) (Ne.symm hab)
    hvb hva

/-! ## The parity invariant of legal moves -/

theorem swapAt_comm (s : List Int) (i j : Nat) (hne : i ≠ j) :
    swapAt s i j = swapAt s j i := by
  unfold swapAt
  rw [List.set_comm _ _ _ hne]

theorem blank_unique {s : State} (hs : ValidState s) {i k : Nat} (hi : i < 9)
    (hk : k < 9) (hblank : s.getD i 0 = 0) (hk0 : s.getD k 0 = 0) : k = i := by
  have hlen := hs.length_eq
  have hi' : i < s.length := by omega
  have hk' : k < s.length := by omega
  rw [List.getD_eq_getElem s 0 hi'] at hblank
  rw [List.getD_eq_getElem s 0 hk'] at hk0
  exact (hs.nodup.getElem_inj_iff).mp (hk0.trans hblank.symm)

theorem emptyIndexOf_swapAt {s : State} (hs : ValidState s) {i ti : Nat}
    (hi : i < 9) (hti : ti < 9) (hne : i ≠ ti) (hblank : s.getD i 0 = 0) :
    emptyIndexOf (swapAt s i ti) = (ti : Int) := by
  have hlen := hs.length_eq
  have hlent : (swapAt s i ti).length = 9 := by rw [swapAt_length]; omega
  have hti' : ti < (swapAt s i ti).length := by omega
  have hgdti : (swapAt s i ti).getD ti 0 = 0 := by
    rw [swapAt_getD s i ti ti (by omega) (by omega) (by omega), if_pos rfl]
    exact hblank
  have hother : ∀ k, k < 9 → k ≠ ti → (swapAt s i ti).getD k 0 ≠ 0 := by
    intro k hk hkti
    by_cases hki : k = i
    · rw [swapAt_getD s i ti k (by omega) (by omega) (by omega)]
      rw [if_neg (fun hc => hkti hc.symm), if_pos hki.symm]
      exact tile_ne_zero hs (by omega) (by omega) hne hblank
    · rw [swapAt_getD s i ti k (by omega) (by omega) (by omega)]
      rw [if_neg (fun hc => hkti hc.symm), if_neg (fun hc => hki hc.symm)]
      intro hc
      exact hki (blank_unique hs hi hk hblank hc)
  have hfind : (swapAt s i ti).findIdx? (fun x => x == 0) = some ti := by
    rw [List.findIdx?_eq_some_iff_getElem]
    refine ⟨hti', ?_, ?_⟩
    · rw [← List.getD_eq_getElem _ 0 hti']
      simpa using hgdti
    · intro j hj
      have hj9 : j < 9 := by omega
      have := hother j hj9 (by omega)
      rw [List.getD_eq_getElem _ 0 (by omega : j < (swapAt s i ti).length)] at this
      simpa using this
  unfold emptyIndexOf
  rw [hfind]

theorem zmod2_natCast_mod (a : Nat) : ((a % 2 : Nat) : ZMod 2) = (a : ZMod 2) := by
  conv_rhs => rw [← Nat.div_add_mod a 2]
  push_cast
  have h2 : (2 : ZMod 2) = 0 := by decide
  rw [h2, zero_mul, zero_add]

theorem natCast_zmod2_flip {a b : Nat} (h : (a + 1) % 2 = b % 2) :
    (a : ZMod 2) + 1 = (b : ZMod 2) := by
  calc (a : ZMod 2) + 1 = ((a + 1 : Nat) : ZMod 2) := by push_cast; ring
    _ = (((a + 1) % 2 : Nat) : ZMod 2) := (zmod2_natCast_mod _).symm
    _ = ((b % 2 : Nat) : ZMod 2) := by rw [h]
    _ = (b : ZMod 2) := zmod2_natCast_mod b

theorem parityJ_step {s t : State} (hs : ValidState s) (hst : Step s t) :
    parityJ t = parityJ s := by
  obtain ⟨mv, hmv⟩ := step_iff.mp hst
  obtain ⟨i, ti, hi, hti, hne, hei, hblank, hnb, -, -, hadj4⟩ := step_decomp hs hmv
  have hlen := hs.length_eq
  have hinvflip : (inversions (swapAt s i ti) + 1) % 2 = inversions s % 2 := by
    rcases Nat.lt_or_ge i ti with hlt | hge
    · exact inversions_swapAt_mod2 hs.nodup hlt (by omega)
    · have hlt : ti < i := by omega
      rw [swapAt_comm s i ti hne]
      exact inversions_swapAt_mod2 hs.nodup hlt (by omega)
  have hblank2 : emptyIndexOf (swapAt s i ti) = (ti : Int) :=
    emptyIndexOf_swapAt hs hi hti hne hblank
  have hidx : (ti + 1) % 2 = i % 2 := by
    rcases hadj4 with h | h | h | h <;> omega
  have e1 : (inversions (swapAt s i ti) : ZMod 2) + 1 = (inversions s : ZMod 2) :=
    natCast_zmod2_flip hinvflip
  have e2 : ((ti : Nat) : ZMod 2) + 1 = ((i : Nat) : ZMod 2) :=
    natCast_zmod2_flip hidx
  unfold parityJ
  rw [hnb, hblank2, hei, Int.toNat_natCast, Int.toNat_natCast]
  rw [← e1, ← e2]
  have key : ∀ x y : ZMod 2, x + y = x + 1 + (y + 1) := by decide
  exact key _ _

theorem parityJ_reach :
    ∀ {s t : State} {n : Nat}, ReachN s n t → ValidState s →
      parityJ t = parityJ s := by
  intro s t n h
  induction h with
  | refl s => intro _; rfl
  | @head s u t n hst hr ih =>
    intro hs
    have hu : ValidState u := step_valid hs hst
    rw [ih hu, parityJ_step hs hst]

theorem not_reachable_unsolvable :
    ¬ Reachable [1, 2, 3, 4, 5, 6, 8, 7, 0] goalState := by
  rintro ⟨n, hr⟩
  have h := parityJ_reach hr (by decide)
  have hne : parityJ goalState ≠ parityJ [1, 2, 3, 4, 5, 6, 8, 7, 0] := by decide
  exact hne h

/-! ## The invariant holds at the seeded configuration -/

theorem initConfig_inv {s : State} (hs : ValidState s) (hne : s ≠ goalState) :
    LoopInv s (initConfig s) := by
  refine ⟨?_, ?_, ?_, ?_, ?_, ?_, ?_, ?_, ?_, ?_, ?_⟩
  · simp [initConfig]
  · intro p hp
    simp only [initConfig, List.mem_singleton] at hp
    rw [hp]
    exact hs
  · intro p hp
    simp only [initConfig, List.mem_singleton] at hp
    rw [hp]
    simp [initConfig]
  · simp [initConfig, lookup_cons_eq]
  · simp [initConfig]
  · intro st
    simp [initConfig]
  · intro st hst
    simp only [initConfig, List.mem_singleton] at hst
    subst hst
    refine ⟨0, ?_⟩
    simp [initConfig, lookup_cons_eq]
  · intro k
    constructor
    · rintro ⟨e, he⟩
      simp [initConfig] at he
    · rintro ⟨hks, v, hv⟩
      simp only [initConfig] at hv
      rw [lookup_cons_eq] at hv
      by_cases hk : k = s
      · exact absurd hk hks
      · rw [if_neg hk] at hv
        exact absurd hv (by simp)
  · intro k p mv hk
    simp [initConfig] at hk
  · intro p hp
    simp only [initConfig, List.mem_singleton] at hp
    left
    rw [hp]
    simp [initConfig]
  · rintro ⟨v, hv⟩
    simp only [initConfig] at hv
    rw [lookup_cons_eq] at hv
    by_cases hk : goalState = s
    · exact absurd hk.symm hne
    · rw [if_neg hk] at hv
      exact absurd hv (by simp)

theorem phi_init_lt (s : State) : phi (initConfig s) < solveFuel := by
  unfold phi gpotSum initConfig solveFuel
  simp only [List.map_cons, List.map_nil, List.sum_cons, List.sum_nil,
    List.length_cons, List.length_nil]
  omega

/-! ## Claim C6: the search terminates -/

/-- C6: on any valid initial state the embedded loop finishes within the
proved fuel bound `solveFuel` (no fuel exhaustion), and `solve_with_a_star`
returns exactly the loop's result (the empty path short-circuit aside), i.e.
the call runs to completion with a `MovePath` or with absence. -/
theorem solve_terminates (s : State) (hs : ValidState s) :
    ∃ res : Option MovePath, solve_with_a_star s = res ∧
      (s ≠ goalState → solveLoop solveFuel (initConfig s) = some res) := by
  by_cases hne : s = goalState
  · exact ⟨some [], by rw [hne]; rfl, fun hc => absurd hne hc⟩
  · have hinv := initConfig_inv hs hne
    have hsome := solveLoop_isSome solveFuel (initConfig s) hinv (phi_init_lt s)
    obtain ⟨res, hres⟩ := Option.isSome_iff_exists.mp hsome
    refine ⟨res, ?_, fun _ => hres⟩
    unfold solve_with_a_star
    rw [if_neg hne, hres]

/-- Witness for C6 at a concrete valid state. -/
theorem solve_terminates_witness :
    ValidState [1, 2, 3, 4, 5, 6, 7, 0, 8] ∧
      ∃ res : Option MovePath, solve_with_a_star [1, 2, 3, 4, 5, 6, 7, 0, 8] = res ∧
        ([1, 2, 3, 4, 5, 6, 7, 0, 8] ≠ goalState →
          solveLoop solveFuel (initConfig [1, 2, 3, 4, 5, 6, 7, 0, 8]) = some res) :=
  ⟨by decide, solve_terminates [1, 2, 3, 4, 5, 6, 7, 0, 8] (by decide)⟩

/-! ## Claim C2: returned paths replay to the goal -/

/-- C2: whenever the solver returns a path from a valid initial state,
replaying it — each move naming an in-bounds cell orthogonally adjacent to
the current blank, whose tile is swapped with the blank — ends exactly at
the goal configuration. -/
theorem solve_path_replays (s : State) (p : MovePath) (hs : ValidState s)
    (h : solve_with_a_star s = some p) :
    replayMoves s p = some goalState := by
  unfold solve_with_a_star at h
  by_cases hg : s = goalState
  · rw [if_pos hg] at h
    simp only [Option.some.injEq] at h
    subst h
    rw [replayMoves_nil, hg]
  · rw [if_neg hg] at h
    cases hloop : solveLoop solveFuel (initConfig s) with
    | none =>
      rw [hloop] at h
      exact absurd h (by simp)
    | some r =>
      rw [hloop] at h
      exact (solveLoop_sound hs solveFuel (initConfig s) r
        (initConfig_inv hs hg) hloop).2 p h

/-- Witness for C2 at a concrete valid state. -/
theorem solve_path_replays_witness :
    ValidState [1, 2, 3, 4, 5, 6, 7, 0, 8] ∧
      solve_with_a_star [1, 2, 3, 4, 5, 6, 7, 0, 8] = some [((2 : Int), (2 : Int))] ∧
      replayMoves [1, 2, 3, 4, 5, 6, 7, 0, 8] [((2 : Int), (2 : Int))] =
        some goalState :=
  ⟨by decide, by decide,
    solve_path_replays [1, 2, 3, 4, 5, 6, 7, 0, 8] [((2 : Int), (2 : Int))]
      (by decide) (by decide)⟩

/-! ## Claim C3: absence of a result characterises unsolvability -/

/-- C3: for valid initial states the solver reports absence exactly when no
sequence of legal moves reaches the goal, and in particular it reports
absence on the unsolvable configuration `[1,2,3,4,5,6,8,7,0]`. -/
theorem solve_none_iff_unreachable :
    (∀ s : State, ValidState s →
      (solve_with_a_star s = none ↔ ¬ Reachable s goalState)) ∧
    solve_with_a_star [1, 2, 3, 4, 5, 6, 8, 7, 0] = none := by
  have main : ∀ s : State, ValidState s →
      (solve_with_a_star s = none ↔ ¬ Reachable s goalState) := by
    intro s hs
    by_cases hg : s = goalState
    · constructor
      · intro hnone
        unfold solve_with_a_star at hnone
        rw [if_pos hg] at hnone
        exact absurd hnone (by simp)
      · intro hnr
        exact absurd ⟨0, hg ▸ ReachN.refl s⟩ hnr
    · have hinv := initConfig_inv hs hg
      have hsome := solveLoop_isSome solveFuel (initConfig s) hinv (phi_init_lt s)
      obtain ⟨res, hres⟩ := Option.isSome_iff_exists.mp hsome
      have hsound := solveLoop_sound hs solveFuel (initConfig s) res hinv hres
      have hsolve : solve_with_a_star s = res := by
        unfold solve_with_a_star
        rw [if_neg hg, hres]
      constructor
      · intro hnone
        rw [hsolve] at hnone
        exact hsound.1 hnone
      · intro hnr
        rw [hsolve]
        cases res with
        | none => rfl
        | some p =>
          have hreplay := hsound.2 p rfl
          obtain ⟨hr, -⟩ := replayMoves_reach p s goalState hs hreplay
          exact absurd ⟨p.length, hr⟩ hnr
  exact ⟨main, (main [1, 2, 3, 4, 5, 6, 8, 7, 0] (by decide)).mpr
    not_reachable_unsolvable⟩

/-! ## Claim C4: where the membership check actually sits -/

/-- C4 counterexample: the loop performs no stale-entry discard at pop time.
In a configuration whose single frontier entry records the stale f-score 99
for `[1,2,3,4,5,6,7,0,8]` (whose newest g-score 0 gives f = 1), the popped
entry is expanded — producing the goal and returning a path — rather than
discarded, which would exhaust the frontier and report absence. -/
theorem stale_entry_expanded :
    popMin [((99 : Int), ([1, 2, 3, 4, 5, 6, 7, 0, 8] : State))] =
      some (((99 : Int), ([1, 2, 3, 4, 5, 6, 7, 0, 8] : State)), []) ∧
    (99 : Int) ≠
      (((List.lookup ([1, 2, 3, 4, 5, 6, 7, 0, 8] : State)
          [(([1, 2, 3, 4, 5, 6, 7, 0, 8] : State), (0 : Nat))]).getD 0 : Int) +
        heuristic [1, 2, 3, 4, 5, 6, 7, 0, 8]) ∧
    solveLoop 2
        ⟨[((99 : Int), [1, 2, 3, 4, 5, 6, 7, 0, 8])],
          [([1, 2, 3, 4, 5, 6, 7, 0, 8], 0)], [], [[1, 2, 3, 4, 5, 6, 7, 0, 8]]⟩ ≠
      solveLoop 1
        ⟨[], [([1, 2, 3, 4, 5, 6, 7, 0, 8], 0)], [],
          [[1, 2, 3, 4, 5, 6, 7, 0, 8]]⟩ := by
  refine ⟨rfl, by decide, ?_⟩
  decide

/-- C4 as amended: the membership check sits before the push, not before the
expansion of a popped entry.  A neighbour already marked present is never
pushed again, and consequently a frontier whose states are mirrored by the
membership set and duplicate-free stays duplicate-free after a relaxation
(there is never a stale duplicate entry to discard; a popped entry is always
expanded, with the newest g-score). -/
theorem relax_push_guard (cur : State) (c : Config) (x : Move × State) :
    (x.2 ∈ c.openhash → (relaxNeighbor cur c x).heap = c.heap) ∧
    ((c.heap.map Prod.snd).Nodup →
      (∀ st ∈ c.heap.map Prod.snd, st ∈ c.openhash) →
      ((relaxNeighbor cur c x).heap.map Prod.snd).Nodup) := by
  rcases hgnb : List.lookup x.2 c.gmap with _ | gnb
  · by_cases hhash : x.2 ∈ c.openhash
    · rw [relaxNeighbor_update (Or.inl hgnb) hhash]
      exact ⟨fun _ => rfl, fun hnd _ => hnd⟩
    · rw [relaxNeighbor_push (Or.inl hgnb) hhash]
      refine ⟨fun hmem => absurd hmem hhash, ?_⟩
      intro hnd hsub
      simp only [List.map_cons]
      exact List.Nodup.cons (fun hmem => hhash (hsub _ hmem)) hnd
  · by_cases hlt : (List.lookup cur c.gmap).getD 0 + 1 < gnb
    · by_cases hhash : x.2 ∈ c.openhash
      · rw [relaxNeighbor_update (Or.inr ⟨gnb, hgnb, hlt⟩) hhash]
        exact ⟨fun _ => rfl, fun hnd _ => hnd⟩
      · rw [relaxNeighbor_push (Or.inr ⟨gnb, hgnb, hlt⟩) hhash]
        refine ⟨fun hmem => absurd hmem hhash, ?_⟩
        intro hnd hsub
        simp only [List.map_cons]
        exact List.Nodup.cons (fun hmem => hhash (hsub _ hmem)) hnd
    · rw [relaxNeighbor_no_improve hgnb hlt]
      exact ⟨fun _ => rfl, fun hnd _ => hnd⟩

/-- Witness for the amended C4 at a concrete configuration. -/
theorem relax_push_guard_witness :
    (relaxNeighbor goalState
        ⟨[((5 : Int), [0])], [(goalState, (0 : Nat))], [], [[0]]⟩
        ((0, 0), [0])).heap = [((5 : Int), [0])] ∧
    ((relaxNeighbor goalState
        ⟨[((5 : Int), [0])], [(goalState, (0 : Nat))], [], [[0]]⟩
        ((0, 0), [0])).heap.map Prod.snd).Nodup :=
  ⟨(relax_push_guard goalState _ _).1 (by decide),
    (relax_push_guard goalState _ _).2 (by decide) (by decide)⟩

/-! ## Claim C1: the returned path length is not always optimal -/

/-- C1: the initial state `[7,8,6,0,1,4,3,2,5]` admits the 27-move solution
spelled out below (machine-checked replay), so its true shortest-path
distance is at most 27; the program, however, returns a 29-move path on this
input (the solver skips re-pushing a state whose g-score improves while it
sits in the open set, so stale-high priorities can reorder expansions).  The
27-step reachability witness is produced by replaying the concrete move
list. -/
theorem shorter_path_exists :
    ReachN [7, 8, 6, 0, 1, 4, 3, 2, 5] 27 goalState := by
  have h : replayMoves [7, 8, 6, 0, 1, 4, 3, 2, 5]
      [(2, 0), (2, 1), (1, 1), (0, 1), (0, 0), (1, 0), (2, 0), (2, 1), (1, 1),
       (1, 2), (2, 2), (2, 1), (1, 1), (0, 1), (0, 0), (1, 0), (2, 0), (2, 1),
       (1, 1), (1, 2), (0, 2), (0, 1), (0, 0), (1, 0), (2, 0), (2, 1), (2, 2)] =
      some goalState := by decide
  have hv : ValidState [7, 8, 6, 0, 1, 4, 3, 2, 5] := by decide
  have := (replayMoves_reach _ _ _ hv h).1
  exact this

/-- Witness for C3 at a concrete valid state. -/
theorem solve_none_iff_unreachable_witness :
    ValidState [1, 2, 3, 4, 5, 6, 8, 7, 0] ∧
      (solve_with_a_star [1, 2, 3, 4, 5, 6, 8, 7, 0] = none ↔
        ¬ Reachable [1, 2, 3, 4, 5, 6, 8, 7, 0] goalState) :=
  ⟨by decide, solve_none_iff_unreachable.1 [1, 2, 3, 4, 5, 6, 8, 7, 0] (by decide)⟩

/-- Witness for C10 at a concrete valid state. -/
theorem blank_scan_in_bounds_witness :
    ValidState [1, 2, 3, 4, 5, 6, 7, 0, 8] ∧
      (0 ≤ emptyIndexOf [1, 2, 3, 4, 5, 6, 7, 0, 8] ∧
       emptyIndexOf [1, 2, 3, 4, 5, 6, 7, 0, 8] < 9 ∧
       emptyIndexOf [1, 2, 3, 4, 5, 6, 7, 0, 8] ≠ -1 ∧
       (emptyIndexOf [1, 2, 3, 4, 5, 6, 7, 0, 8]).toNat < 9 ∧
       ([1, 2, 3, 4, 5, 6, 7, 0, 8] : State).getD
         (emptyIndexOf [1, 2, 3, 4, 5, 6, 7, 0, 8]).toNat 0 = 0 ∧
       ∀ mv ∈ moveOffsets,
         (0 ≤ emptyIndexOf [1, 2, 3, 4, 5, 6, 7, 0, 8] / gridSize + mv.1 ∧
          emptyIndexOf [1, 2, 3, 4, 5, 6, 7, 0, 8] / gridSize + mv.1 < gridSize ∧
          0 ≤ emptyIndexOf [1, 2, 3, 4, 5, 6, 7, 0, 8] % gridSize + mv.2 ∧
          emptyIndexOf [1, 2, 3, 4, 5, 6, 7, 0, 8] % gridSize + mv.2 < gridSize) →
         ((emptyIndexOf [1, 2, 3, 4, 5, 6, 7, 0, 8] / gridSize + mv.1) * gridSize +
           (emptyIndexOf [1, 2, 3, 4, 5, 6, 7, 0, 8] % gridSize + mv.2)).toNat < 9) :=
  ⟨by decide, blank_scan_in_bounds [1, 2, 3, 4, 5, 6, 7, 0, 8] (by decide)⟩
